import Mathlib

/- Batteries marks the `Rat` field operations `irreducible`, which blocks
kernel evaluation of the embedded solver on concrete puzzles; restore the
default reducibility for this file (`Rational32` arithmetic is plain data). -/
set_option allowUnsafeReducibility true
attribute [local semireducible] Rat.add Rat.mul Rat.div Rat.sub Rat.neg Rat.inv

/-!
# A shallow embedding of the `puzzle-solver` crate

This file embeds the core of the `puzzle-solver` Rust crate
(`src/puzzle.rs`, `src/linexpr.rs`, `src/constraint/{alldifferent,equality,unify}.rs`)
as executable Lean definitions, and proves theorems about the embedded code.

Modelling conventions:
* `Val` (Rust `i32`) is modelled as `Int`; `Coef` (`Rational32`) as `Rat`.
  Both stand for exact arithmetic, as the spec requires of the coefficient type.
* `BTreeSet<Val>` is modelled as a strictly sorted `List Int` (iteration in
  ascending order, as for a B-tree set).  `BitSet` (the wake set, iterated in
  ascending index order) is modelled as a sorted `List Nat`.
* Rust `PsResult<T> = Result<T, ()>` becomes the `ok`/`contra` constructors of
  `PRes`.  The extra constructor `div` marks abnormal termination: either a
  source `panic!`/`assert!`/`unreachable!`, or exhaustion of the fuel that
  makes the embedded loops structurally recursive.  Theorems about normal
  behaviour are stated on the `ok`/`contra` outcomes.
* Rust `HashMap` iteration order is unspecified; the embedding fixes a
  deterministic order (association lists, sorted by key where the code
  iterates a map).  All properties proved about map-iterating code are
  order-independent or are stated for the embedded order.
-/

/-- Outcome of an embedded computation: contradiction (`Err(())` in the
source), success, or abnormal termination (source panic / interpreter fuel
exhaustion). -/
inductive PRes (α : Type) where
  | div : PRes α
  | contra : PRes α
  | ok : α → PRes α
deriving DecidableEq, Repr

namespace PRes

def bind {α β : Type} : PRes α → (α → PRes β) → PRes β
  | .div, _ => .div
  | .contra, _ => .contra
  | .ok a, f => f a

instance : Monad PRes where
  pure := .ok
  bind := PRes.bind

@[simp] theorem bind_div {α β : Type} (f : α → PRes β) : PRes.bind .div f = .div := rfl

@[simp] theorem bind_contra {α β : Type} (f : α → PRes β) :
    PRes.bind .contra f = .contra := rfl

@[simp] theorem bind_ok {α β : Type} (a : α) (f : α → PRes β) :
    PRes.bind (.ok a) f = f a := rfl

end PRes

/-! ## Sorted-list sets

`BTreeSet<i32>` and `BitSet` values are embedded as strictly sorted lists.
All the operations the source performs preserve strict sortedness. -/

/-- Insert a value into a sorted list, keeping it sorted and duplicate-free
(`BTreeSet::insert`). -/
def insSorted {α : Type} [LinearOrder α] (v : α) : List α → List α
  | [] => [v]
  | x :: xs =>
    if v < x then v :: x :: xs
    else if v = x then x :: xs
    else x :: insSorted v xs

/-- Union of two sorted lists (`BitSet::union_with`). -/
def wakeUnion (w : List Nat) (w' : List Nat) : List Nat :=
  w'.foldl (fun acc c => insSorted c acc) w

/-! ## Data model (`lib.rs`, `puzzle.rs`) -/

/-- `Val`: the value type of a puzzle variable (`i32` in the source). -/
abbrev Val := Int

/-- `VarToken`: a puzzle variable token, the index of the variable. -/
abbrev VarToken := Nat

/-- `Candidates`: the collection of candidates of a variable. -/
inductive Candidates where
  | none : Candidates
  | value : Val → Candidates
  | set : List Val → Candidates
deriving DecidableEq, Repr

namespace Candidates

/-- `Candidates::len`. -/
def len : Candidates → Nat
  | .none => 0
  | .value _ => 1
  | .set s => s.length

/-- `Candidates::iter`, in ascending order for the `set` case. -/
def toList : Candidates → List Val
  | .none => []
  | .value v => [v]
  | .set s => s

end Candidates

/-- `VarState`: the state of a variable during the solution search. -/
inductive VarState where
  | assigned : Val → VarState
  | unassigned : Candidates → VarState
  | unified : VarToken → VarState
deriving DecidableEq, Repr

/-- The constraints of the crate's `constraint` module.  The trait object
`Rc<Constraint>` is embedded as this closed inductive: the three built-in
propagators are the only ones the claims mention. -/
inductive Constraint where
  /-- `AllDifferent { vars }`. -/
  | allDifferent : List VarToken → Constraint
  /-- `Equality { eqn: LinExpr { constant, coef } }`; the association list
  holds the non-zero coefficients. -/
  | equality : Rat → List (VarToken × Rat) → Constraint
  /-- `Unify { var1, var2 }`. -/
  | unify : VarToken → VarToken → Constraint
deriving DecidableEq, Repr

namespace Constraint

/-- `Constraint::vars()`: the variables the constraint watches. -/
def cvars : Constraint → List VarToken
  | .allDifferent vs => vs
  | .equality _ coef => coef.map Prod.fst
  | .unify a b => if a ≠ b then [a, b] else []

end Constraint

/-- `Puzzle`: initial candidate sets plus the registered constraints.
`num_vars` is `candidates.length` (the source keeps them in sync). -/
structure Puzzle where
  candidates : List Candidates
  constraints : List Constraint
deriving DecidableEq, Repr

/-- `PuzzleSearch`: the intermediate search state.  The wake set is a sorted
list of constraint indices.  The watcher index (`PuzzleConstraints::wake`) is
recomputed from the constraint list on demand (`init_wake` keeps the two in
sync in the source). -/
structure SearchState where
  constraints : List Constraint
  vars : List VarState
  wake : List Nat
deriving DecidableEq, Repr

/-- `PuzzleConstraints::init_wake`, read off for one variable: the (ascending)
indices of the constraints watching variable `idx`. -/
def watchers (cs : List Constraint) (idx : Nat) : List Nat :=
  ((List.range cs.length).zip cs).filterMap
    (fun p => if (p.2.cvars).contains idx then some p.1 else Option.none)

/-! ## Search-state primitives (`puzzle.rs`, `impl PuzzleSearch`)

Each source method recurses through `VarState::Unified` links; the embedding
first resolves the chain (with fuel — the source relies on acyclicity) and
then operates on the terminal cell, which is observationally identical. -/

/-- Follow `Unified` links to the terminal variable index. -/
def resolveVar : Nat → SearchState → VarToken → PRes VarToken
  | 0, _, _ => .div
  | f + 1, s, idx =>
    match s.vars[idx]? with
    | some (.unified other) => resolveVar f s other
    | some _ => .ok idx
    | Option.none => .div

/-- `PuzzleSearch::get_assigned`. -/
def getAssigned (f : Nat) (s : SearchState) (var : VarToken) : PRes (Option Val) :=
  PRes.bind (resolveVar f s var) fun j =>
    match s.vars[j]? with
    | some (.assigned v) => .ok (some v)
    | some (.unassigned _) => .ok Option.none
    | _ => .div

/-- `PuzzleSearch::get_unassigned` (empty iterator on an assigned variable). -/
def getUnassigned (f : Nat) (s : SearchState) (var : VarToken) : PRes (List Val) :=
  PRes.bind (resolveVar f s var) fun j =>
    match s.vars[j]? with
    | some (.assigned _) => .ok []
    | some (.unassigned cs) => .ok cs.toList
    | _ => .div

/-- `PuzzleSearch::get_min_max`: minimum and maximum candidate, or `Err(())`
when the variable has no candidates. -/
def getMinMax (f : Nat) (s : SearchState) (var : VarToken) : PRes (Val × Val) :=
  PRes.bind (resolveVar f s var) fun j =>
    match s.vars[j]? with
    | some (.assigned v) => .ok (v, v)
    | some (.unassigned .none) => .contra
    | some (.unassigned (.value v)) => .ok (v, v)
    | some (.unassigned (.set l)) =>
      match l.head?, l.getLast? with
      | some a, some b => .ok (a, b)
      | _, _ => .contra
    | _ => .div

/-- `PuzzleSearch::set_candidate`: shrink a variable to one value. -/
def setCandidate (f : Nat) (s : SearchState) (var : VarToken) (val : Val) :
    PRes SearchState :=
  PRes.bind (resolveVar f s var) fun j =>
    match s.vars[j]? with
    | some (.assigned v) => if v = val then .ok s else .contra
    | some (.unassigned .none) => .contra
    | some (.unassigned (.value v)) => if v = val then .ok s else .contra
    | some (.unassigned (.set l)) =>
      if l.contains val then
        .ok { s with vars := s.vars.set j (.unassigned (.set [val])),
                     wake := wakeUnion s.wake (watchers s.constraints j) }
      else .contra
    | _ => .div

/-- `PuzzleSearch::remove_candidate`: remove one value; `Err(())` if the
domain is (or becomes) empty. -/
def removeCandidate (f : Nat) (s : SearchState) (var : VarToken) (val : Val) :
    PRes SearchState :=
  PRes.bind (resolveVar f s var) fun j =>
    match s.vars[j]? with
    | some (.assigned v) => if v ≠ val then .ok s else .contra
    | some (.unassigned .none) => .contra
    | some (.unassigned (.value v)) => if v ≠ val then .ok s else .contra
    | some (.unassigned (.set l)) =>
      if l.contains val then
        let l' := l.filter (fun x => x ≠ val)
        if l'.isEmpty then .contra
        else .ok { s with vars := s.vars.set j (.unassigned (.set l')),
                          wake := wakeUnion s.wake (watchers s.constraints j) }
      else if l.isEmpty then .contra else .ok s
    | _ => .div

/-- `PuzzleSearch::bound_candidate_range`.  The `.expect("candidates")` on an
empty `Set` is a source panic, embedded as `div`. -/
def boundCandidateRange (f : Nat) (s : SearchState) (var : VarToken)
    (mn mx : Val) : PRes ((Val × Val) × SearchState) :=
  PRes.bind (resolveVar f s var) fun j =>
    match s.vars[j]? with
    | some (.assigned v) => if mn ≤ v ∧ v ≤ mx then .ok ((v, v), s) else .contra
    | some (.unassigned .none) => .contra
    | some (.unassigned (.value v)) =>
      if mn ≤ v ∧ v ≤ mx then .ok ((v, v), s) else .contra
    | some (.unassigned (.set l)) =>
      match l.head?, l.getLast? with
      | some cmin, some cmax =>
        if cmin < mn ∨ mx < cmax then
          let l' := l.filter (fun v => decide (mn ≤ v ∧ v ≤ mx))
          let s' : SearchState :=
            { s with vars := s.vars.set j (.unassigned (.set l')),
                     wake := wakeUnion s.wake (watchers s.constraints j) }
          match l'.head?, l'.getLast? with
          | some a, some b => .ok ((a, b), s')
          | _, _ => .contra
        else .ok ((cmin, cmax), s)
      | _, _ => .div
    | _ => .div

/-! ## Linear expressions (`linexpr.rs`) and constraint substitution -/

/-- Look up the coefficient of a variable (`HashMap::get`). -/
def assocGet (coef : List (VarToken × Rat)) (x : VarToken) : Option Rat :=
  (coef.find? (fun p => p.1 == x)).map Prod.snd

/-- `LinExpr + coef * var` (`linexpr.rs`, `Add for LinExpr`): merge the term
into the coefficient map, deleting the entry if the sum is zero. -/
def linAddTerm (coef : List (VarToken × Rat)) (x : VarToken) (c : Rat) :
    List (VarToken × Rat) :=
  match assocGet coef x with
  | some c0 =>
    if c0 + c = 0 then coef.filter (fun p => p.1 != x)
    else coef.map (fun p => if p.1 == x then (p.1, c0 + c) else p)
  | Option.none => coef ++ [(x, c)]

namespace Constraint

/-- `Constraint::substitute(from, to)`; `Option.none` embeds `Err(())`. -/
def substituteC : Constraint → VarToken → VarToken → Option Constraint
  | .allDifferent vs, vfrom, vto =>
    match vs.findIdx? (fun v => v == vfrom) with
    | some i =>
      if vs.contains vto then Option.none
      else some (.allDifferent (vs.set i vto))
    | Option.none => Option.none
  | .equality k coef, vfrom, vto =>
    match assocGet coef vfrom with
    | some c =>
      some (.equality k (linAddTerm (coef.filter (fun p => p.1 != vfrom)) vto c))
    | Option.none => some (.equality k coef)
  | .unify a b, vfrom, vto =>
    some (.unify (if a = vfrom then vto else a) (if b = vfrom then vto else b))

end Constraint

/-! ## `on_assigned` (`alldifferent.rs`, `equality.rs`) -/

/-- `AllDifferent::on_assigned`: remove `val` from every other watched
variable. -/
def adOnAssigned (f : Nat) (s : SearchState) (vs : List VarToken)
    (var : VarToken) (val : Val) : PRes SearchState :=
  match vs with
  | [] => .ok s
  | v :: rest =>
    if v ≠ var then
      PRes.bind (removeCandidate f s v val) fun s' => adOnAssigned f s' rest var val
    else adOnAssigned f s rest var val

/-- The scan of `Equality::on_assigned`: accumulate the partial sum of the
assigned terms; remember the first unassigned term; return `Ok` early on a
second unassigned term; at the end solve for the single unassigned variable
(contradiction if the solution is not integral), or check the sum is zero. -/
def eqScan (f : Nat) (s : SearchState) :
    List (VarToken × Rat) → Rat → Option (VarToken × Rat) → PRes SearchState
  | [], sum, Option.none => if sum = 0 then .ok s else .contra
  | [], sum, some (x, c) =>
    let v : Rat := -sum / c
    if v.den = 1 then setCandidate f s x v.num else .contra
  | (y, c) :: rest, sum, acc =>
    PRes.bind (getAssigned f s y) fun a =>
      match a with
      | some val => eqScan f s rest (sum + c * (val : Rat)) acc
      | Option.none =>
        match acc with
        | some _ => .ok s
        | Option.none => eqScan f s rest sum (some (y, c))

/-- `Constraint::on_assigned` (the `Unify` constraint uses the trait
default, which succeeds without touching the state). -/
def Constraint.onAssigned (c : Constraint) (f : Nat) (s : SearchState)
    (var : VarToken) (val : Val) : PRes SearchState :=
  match c with
  | .allDifferent vs => adOnAssigned f s vs var val
  | .equality k coef => eqScan f s coef k Option.none
  | .unify _ _ => .ok s

/-! ## `AllDifferent::on_updated` -/

/-- Insert a candidate value into the `all_candidates` table: a value seen
for a second bearer is downgraded to `Option.none` (the table is kept sorted
by value; `HashMap` iteration order is unspecified in the source). -/
def tblInsert (tbl : List (Val × Option VarToken)) (val : Val) (var : VarToken) :
    List (Val × Option VarToken) :=
  match tbl with
  | [] => [(val, some var)]
  | (v, o) :: rest =>
    if val < v then (val, some var) :: (v, o) :: rest
    else if val = v then (v, Option.none) :: rest
    else (v, o) :: tblInsert rest val var

/-- Build `num_unassigned` and `all_candidates` over the watched variables. -/
def adBuild (f : Nat) (s : SearchState) :
    List VarToken → Nat × List (Val × Option VarToken) →
    PRes (Nat × List (Val × Option VarToken))
  | [], acc => .ok acc
  | v :: rest, (k, tbl) =>
    PRes.bind (getAssigned f s v) fun a =>
      match a with
      | some _ => adBuild f s rest (k, tbl)
      | Option.none =>
        PRes.bind (getUnassigned f s v) fun vals =>
          adBuild f s rest (k + 1, vals.foldl (fun t val => tblInsert t val v) tbl)

/-- The assignment sweep of `AllDifferent::on_updated`: set every value whose
only bearer is a single variable. -/
def adAssignForced (f : Nat) (s : SearchState) :
    List (Val × Option VarToken) → PRes SearchState
  | [] => .ok s
  | (val, some var) :: rest =>
    PRes.bind (setCandidate f s var val) fun s' => adAssignForced f s' rest
  | (_, Option.none) :: rest => adAssignForced f s rest

/-- `AllDifferent::on_updated`. -/
def adOnUpdated (f : Nat) (s : SearchState) (vs : List VarToken) :
    PRes SearchState :=
  PRes.bind (adBuild f s vs (0, [])) fun kt =>
    if kt.1 > kt.2.length then .contra
    else if kt.1 = kt.2.length then adAssignForced f s kt.2
    else .ok s

/-! ## `Equality::on_updated` (interval bounds propagation) -/

/-- `Ratio::floor().to_integer()` (rounding towards negative infinity). -/
def ratFloor (q : Rat) : Int := Int.fdiv q.num q.den

/-- `Ratio::ceil().to_integer()` (rounding towards positive infinity). -/
def ratCeil (q : Rat) : Int := -(Int.fdiv (-q.num) q.den)

/-- Compute `sum_min` and `sum_max` of the whole expression from each
variable's current minimum and maximum. -/
def eqSums (f : Nat) (s : SearchState) :
    List (VarToken × Rat) → Rat → Rat → PRes (Rat × Rat)
  | [], mn, mx => .ok (mn, mx)
  | (x, c) :: rest, mn, mx =>
    PRes.bind (getMinMax f s x) fun mm =>
      if c > 0 then eqSums f s rest (mn + c * (mm.1 : Rat)) (mx + c * (mm.2 : Rat))
      else eqSums f s rest (mn + c * (mm.2 : Rat)) (mx + c * (mm.1 : Rat))

/-- The round-robin tightening loop of `Equality::on_updated`: `iters` is the
source's countdown (reset to `coef.length` whenever a domain shrank), `pos`
the position of the cyclic iterator, and the first `Nat` the interpreter
fuel. -/
def eqLoop (f : Nat) (coef : List (VarToken × Rat)) :
    Nat → Nat → Nat → Rat → Rat → SearchState → PRes SearchState
  | 0, _, _, _, _, _ => .div
  | _ + 1, 0, _, _, _, s => .ok s
  | g + 1, iters + 1, pos, smn, smx, s =>
    if ¬(smn ≤ 0 ∧ 0 ≤ smx) then .contra
    else
      match coef[pos % coef.length]? with
      | Option.none => .div
      | some (x, c) =>
        PRes.bind (getAssigned f s x) fun a =>
          match a with
          | some _ => eqLoop f coef g iters (pos + 1) smn smx s
          | Option.none =>
            PRes.bind (getMinMax f s x) fun mm =>
              let mnv := mm.1
              let mxv := mm.2
              let mnb := if c > 0 then ratCeil ((c * (mxv : Rat) - smx) / c)
                         else ratCeil ((c * (mxv : Rat) - smn) / c)
              let mxb := if c > 0 then ratFloor ((c * (mnv : Rat) - smn) / c)
                         else ratFloor ((c * (mnv : Rat) - smx) / c)
              if mnv < mnb ∨ mxb < mxv then
                PRes.bind (boundCandidateRange f s x mnb mxb) fun r =>
                  let nmn := r.1.1
                  let nmx := r.1.2
                  let smn' := if c > 0 then smn + c * ((nmn - mnv : Int) : Rat)
                              else smn + c * ((nmx - mxv : Int) : Rat)
                  let smx' := if c > 0 then smx + c * ((nmx - mxv : Int) : Rat)
                              else smx + c * ((nmn - mnv : Int) : Rat)
                  eqLoop f coef g coef.length (pos + 1) smn' smx' r.2
              else eqLoop f coef g iters (pos + 1) smn smx s

/-- `Equality::on_updated`. -/
def eqOnUpdated (f : Nat) (s : SearchState) (k : Rat)
    (coef : List (VarToken × Rat)) : PRes SearchState :=
  PRes.bind (eqSums f s coef k k) fun mm =>
    eqLoop f coef f coef.length 0 mm.1 mm.2 s

/-! ## Unification (`PuzzleSearch::unify`, `PuzzleConstraints::substitute`) -/

/-- `PuzzleConstraints::substitute`: rewrite every constraint waking on
`vfrom` (indices in ascending order). -/
def substituteAll : List Nat → List Constraint → VarToken → VarToken →
    PRes (List Constraint)
  | [], cs, _, _ => .ok cs
  | cidx :: rest, cs, vfrom, vto =>
    match cs[cidx]? with
    | some c =>
      match c.substituteC vfrom vto with
      | some c' => substituteAll rest (cs.set cidx c') vfrom vto
      | Option.none => .contra
    | Option.none => .div

/-- The tail of `PuzzleSearch::unify` after the orientation of `from`/`to`
has been fixed: substitute the constraints, wake the watchers of `to`,
intersect the candidates (only when `from` is `Assigned`, or when both cells
hold candidate `Set`s — the source's `if let` chain), and redirect `from` to
`to`.  The source's `assert!` is embedded as `div`. -/
def stateUnifyCore (f : Nat) (s : SearchState) (vfrom vto : VarToken) :
    PRes SearchState :=
  PRes.bind (substituteAll (watchers s.constraints vfrom) s.constraints vfrom vto)
    fun cs' =>
    let s1 : SearchState :=
      { constraints := cs', vars := s.vars,
        wake := wakeUnion s.wake (watchers cs' vto) }
    if (watchers cs' vfrom).isEmpty then
      match s1.vars[vfrom]? with
      | some (.assigned v) =>
        PRes.bind (setCandidate f s1 vto v) fun s2 =>
          .ok { s2 with vars := s2.vars.set vfrom (.unified vto) }
      | some (.unassigned (.set l1)) =>
        (match s1.vars[vto]? with
         | some (.unassigned (.set l2)) =>
           let l2' := l2.filter (fun v => l1.contains v)
           if l2'.isEmpty then .contra
           else
             .ok { s1 with vars := (s1.vars.set vto
                     (.unassigned (.set l2'))).set vfrom (.unified vto) }
         | _ => .ok { s1 with vars := s1.vars.set vfrom (.unified vto) })
      | _ => .ok { s1 with vars := s1.vars.set vfrom (.unified vto) }
    else .div

/-- `PuzzleSearch::unify`: preliminary checks and the orientation of
`from`/`to`.  When exactly one side is `Assigned`, the `Assigned` one is kept
as `from` (the source swaps only in the `(Unassigned, Assigned)` case). -/
def stateUnify (f : Nat) (s : SearchState) (a b : VarToken) : PRes SearchState :=
  if a = b then .ok s
  else
    match s.vars[a]?, s.vars[b]? with
    | some (.assigned v1), some (.assigned v2) => if v1 = v2 then .ok s else .contra
    | some (.unified _), some _ => .div
    | some _, some (.unified _) => .div
    | some (.unassigned _), some (.assigned _) => stateUnifyCore f s b a
    | some (.assigned _), some (.unassigned _) => stateUnifyCore f s a b
    | some (.unassigned _), some (.unassigned _) => stateUnifyCore f s a b
    | _, _ => .div

/-- `Constraint::on_updated`. -/
def Constraint.onUpdated (c : Constraint) (f : Nat) (s : SearchState) :
    PRes SearchState :=
  match c with
  | .allDifferent vs => adOnUpdated f s vs
  | .equality k coef => eqOnUpdated f s k coef
  | .unify a b => if a ≠ b then stateUnify f s a b else .ok s

/-! ## The search engine (`PuzzleSearch::assign/constrain/solve`, `Puzzle`) -/

/-- The firing loop of `PuzzleSearch::assign`: call `on_assigned` of every
constraint (in ascending index order) that watches the assigned variable. -/
def fireAssignedGo (f : Nat) (idx : VarToken) (val : Val) :
    List Nat → SearchState → PRes SearchState
  | [], s => .ok s
  | cidx :: rest, s =>
    if (watchers s.constraints idx).contains cidx then
      match s.constraints[cidx]? with
      | some c =>
        PRes.bind (c.onAssigned f s idx val) fun s' =>
          fireAssignedGo f idx val rest s'
      | Option.none => .div
    else fireAssignedGo f idx val rest s

/-- `PuzzleSearch::assign`: record the assignment, wake the watchers, and run
their `on_assigned` callbacks. -/
def assign (f : Nat) (s : SearchState) (idx : VarToken) (val : Val) :
    PRes SearchState :=
  let s1 : SearchState :=
    { s with vars := s.vars.set idx (.assigned val),
             wake := wakeUnion s.wake (watchers s.constraints idx) }
  fireAssignedGo f idx val (List.range s1.constraints.length) s1

/-- The "gimme" pass of `PuzzleSearch::constrain`: cycle over the variables;
a `0`-candidate variable is a contradiction, a `1`-candidate variable is
assigned; stop after a full quiet cycle (`idx` returns to `last`). -/
def gimmeLoop (f : Nat) : Nat → SearchState → Nat → Nat → PRes SearchState
  | 0, _, _, _ => .div
  | g + 1, s, idx, last =>
    match s.vars[idx]? with
    | some (.unassigned cs) =>
      match cs.toList with
      | [] => .contra
      | [v] =>
        PRes.bind (assign f s idx v) fun s' =>
          gimmeLoop f g s' (if idx + 1 ≥ s'.vars.length then 0 else idx + 1) idx
      | _ =>
        if idx = last then .ok s
        else gimmeLoop f g s (if idx + 1 ≥ s.vars.length then 0 else idx + 1) last
    | _ =>
      if idx = last then .ok s
      else gimmeLoop f g s (if idx + 1 ≥ s.vars.length then 0 else idx + 1) last

/-- The constraint-firing drain of `PuzzleSearch::constrain`: run
`on_updated` of every drained constraint index in ascending order. -/
def fireList (f : Nat) : List Nat → SearchState → PRes SearchState
  | [], s => .ok s
  | cidx :: rest, s =>
    match s.constraints[cidx]? with
    | some c => PRes.bind (c.onUpdated f s) fun s' => fireList f rest s'
    | Option.none => .div

/-- `PuzzleSearch::constrain`: while the wake set is non-empty, run a gimme
pass, then drain the wake set and fire the woken constraints. -/
def constrain : Nat → SearchState → PRes SearchState
  | f, s =>
    if s.wake.isEmpty then .ok s
    else
      match f with
      | 0 => .div
      | Nat.succ g =>
        PRes.bind (gimmeLoop g g s 0 (s.vars.length - 1)) fun s1 =>
          if s1.wake.isEmpty then constrain g s1
          else
            PRes.bind (fireList g s1.wake { s1 with wake := [] }) fun s2 =>
              constrain g s2

/-- `usize::MAX`: the key `min_by_key` gives every non-`Unassigned` cell. -/
def usizeMax : Nat := 2 ^ 64 - 1

/-- The branching key of `PuzzleSearch::solve`. -/
def varKey : VarState → Nat
  | .unassigned cs => cs.len
  | _ => usizeMax

/-- `min_by_key` over the enumerated variables (first minimum wins). -/
def nextUnassigned (s : SearchState) : Option (Nat × VarState) :=
  ((List.range s.vars.length).zip s.vars).foldl
    (fun acc p =>
      match acc with
      | Option.none => some p
      | some q => if varKey p.2 < varKey q.2 then some p else some q)
    Option.none

/-- A `Solution`: the assigned value of every variable, by index. -/
abbrev Solution := List Val

/-- `ops::Index<VarToken> for PuzzleSearch`: the value a variable resolves
to; `Option.none` when the source would panic. -/
def readVal (f : Nat) (s : SearchState) (idx : Nat) : Option Val :=
  match resolveVar f s idx with
  | .ok j =>
    match s.vars[j]? with
    | some (.assigned v) => some v
    | _ => Option.none
  | _ => Option.none

/-- Read the emitted `Solution` off a search state with no `Unassigned`
cells. -/
def readAll (s : SearchState) : Option Solution :=
  (List.range s.vars.length).mapM (fun idx => readVal (s.vars.length + 1) s idx)

/-- The candidate loop of `PuzzleSearch::solve`: clone, assign, recurse
through `solveF` (the solver at one fuel less); stop as soon as `count`
solutions have been found. -/
def tryVals (solveF : SearchState → Nat → List Solution → PRes (List Solution))
    (g : Nat) (s : SearchState) (idx : Nat) :
    List Val → Nat → List Solution → PRes (List Solution)
  | [], _, sols => .ok sols
  | v :: rest, count, sols =>
    match assign g s idx v with
    | .div => .div
    | .contra => tryVals solveF g s idx rest count sols
    | .ok s2 =>
      match solveF s2 count sols with
      | .ok sols' =>
        if sols'.length ≥ count then .ok sols'
        else tryVals solveF g s idx rest count sols'
      | r => r

/-- `PuzzleSearch::solve`: propagate, then either emit a solution (no
`Unassigned` cell left), prune (an empty domain at the branch point), or
branch on the MRV variable, trying its candidates in ascending order until
`count` solutions have been collected. -/
def solveRec : Nat → SearchState → Nat → List Solution → PRes (List Solution)
  | 0, _, _, _ => .div
  | Nat.succ g, s, count, sols =>
    match constrain g s with
    | .div => .div
    | .contra => .ok sols
    | .ok s' =>
      match nextUnassigned s' with
      | some (idx, .unassigned cs) =>
        if cs.len = 0 then .ok sols
        else tryVals (solveRec g) g s' idx cs.toList count sols
      | _ =>
        match readAll s' with
        | some sol => .ok (sols ++ [sol])
        | Option.none => .div

/-- `PuzzleSearch::new`: all variables unassigned with their initial
candidates, every constraint woken. -/
def newSearch (p : Puzzle) : SearchState :=
  { constraints := p.constraints,
    vars := p.candidates.map (fun cs => .unassigned cs),
    wake := List.range p.constraints.length }

/-- `Puzzle::solve_any`. -/
def solveAnyM (f : Nat) (p : Puzzle) : PRes (Option Solution) :=
  if 0 < p.candidates.length then
    PRes.bind (solveRec f (newSearch p) 1 []) fun sols => .ok sols.getLast?
  else .ok Option.none

/-- `Puzzle::solve_unique`: search with limit 2, return the solution only if
exactly one was found. -/
def solveUniqueM (f : Nat) (p : Puzzle) : PRes (Option Solution) :=
  if 0 < p.candidates.length then
    PRes.bind (solveRec f (newSearch p) 2 []) fun sols =>
      .ok (if sols.length = 1 then sols.getLast? else Option.none)
  else .ok Option.none

/-- `Puzzle::solve_all`. -/
def solveAllM (f : Nat) (p : Puzzle) : PRes (List Solution) :=
  if 0 < p.candidates.length then solveRec f (newSearch p) usizeMax []
  else .ok []

/-- `Puzzle::step`: one `constrain` round with no branching; `Option.none`
embeds a contradiction. -/
def stepM (f : Nat) (p : Puzzle) : PRes (Option SearchState) :=
  if 0 < p.candidates.length then
    match constrain f (newSearch p) with
    | .ok s => .ok (some s)
    | .contra => .ok Option.none
    | .div => .div
  else .ok Option.none

/-- `Puzzle::new_var_with_candidates`: the initial `BTreeSet` built by
inserting the given values. -/
def mkCandidates (vals : List Val) : Candidates :=
  .set (vals.foldl (fun l v => insSorted v l) [])

/-! ## Semantic satisfaction (the spec's notion of a solution)

`specConstraintHolds` follows the spec's words: a total assignment satisfies
an all-different constraint when the watched variables take pairwise distinct
values, a linear equality when the affine sum is zero, and a unify constraint
when both variables take the same value.  It is the reference against which
the behaviour of the embedded solver is compared. -/

/-- The value of `constant + Σ coefᵢ · xᵢ` under a total assignment. -/
def evalLin (sol : Solution) (k : Rat) (coef : List (VarToken × Rat)) : Rat :=
  coef.foldl (fun acc p => acc + p.2 * ((sol.getD p.1 0 : Int) : Rat)) k

/-- A total assignment satisfies one constraint (the spec's reading). -/
def specConstraintHolds (sol : Solution) : Constraint → Prop
  | .allDifferent vs => vs.Pairwise (fun a b => sol.getD a 0 ≠ sol.getD b 0)
  | .equality k coef => evalLin sol k coef = 0
  | .unify a b => sol.getD a 0 = sol.getD b 0

/-- A satisfying total assignment of the puzzle: one value per declared
variable, drawn from its initial candidates, satisfying every registered
constraint. -/
def SpecSatisfies (p : Puzzle) (sol : Solution) : Prop :=
  sol.length = p.candidates.length ∧
  (∀ i, i < sol.length → sol.getD i 0 ∈ (p.candidates.getD i .none).toList) ∧
  ∀ c ∈ p.constraints, specConstraintHolds sol c

/-- "The final search state, in which every variable is assigned its
`Solution` value" (claim C1). -/
def finalStateOf (p : Puzzle) (sol : Solution) : SearchState :=
  { constraints := p.constraints, vars := sol.map (fun v => .assigned v),
    wake := [] }

/-! ## Concrete puzzles used by the theorems -/

/-- Two variables over `{1,2}`, unified, with the registered equality
`1 + v0 − v1 = 0` (i.e. `equals(v0 + 1, v1)`).  Unification substitutes
`v0 → v1`; the coefficients `1` and `−1` cancel, leaving
`Equality(constant 1, no vars)`, whose `on_updated` checking loop runs zero
iterations. -/
def pzUnifyCancel : Puzzle :=
  { candidates := [mkCandidates [1, 2], mkCandidates [1, 2]],
    constraints := [.unify 0 1, .equality 1 [(0, 1), (1, -1)]] }

/-- `pzUnifyCancel` plus the pruning equality `v1 − 1 = 0`, so that the
search finds exactly one (spurious) solution. -/
def pzUniqueBug : Puzzle :=
  { candidates := [mkCandidates [1, 2], mkCandidates [1, 2]],
    constraints := [.unify 0 1, .equality 1 [(0, 1), (1, -1)],
                    .equality (-1) [(1, 1)]] }

/-- C1: the solver accepts this "solution" of `pzUnifyCancel`, but the
registered equality's `on_updated` rejects the final state. -/
theorem c1_failing_input_eval :
    solveAnyM 40 pzUnifyCancel = .ok (some [1, 1]) ∧
    solveAllM 40 pzUnifyCancel = .ok [[1, 1], [2, 2]] ∧
    Constraint.equality 1 [(0, 1), (1, -1)] ∈ pzUnifyCancel.constraints ∧
    (Constraint.equality 1 [(0, 1), (1, -1)]).onUpdated 40
      (finalStateOf pzUnifyCancel [1, 1]) = .contra := by
  refine ⟨by decide, by decide, by decide, by decide⟩

/-- C2: `solve_unique` returns `Some([1,1])` on `pzUniqueBug`, although the
puzzle has no satisfying total assignment at all (its constraints demand
`v0 = v1` and `1 + v0 − v1 = 0`). -/
theorem c2_failing_input_eval :
    solveUniqueM 40 pzUniqueBug = .ok (some [1, 1]) ∧
    ∀ sol : Solution, ¬ SpecSatisfies pzUniqueBug sol := by
  constructor
  · decide
  · intro sol h
    obtain ⟨-, -, hc⟩ := h
    have h1 := hc (.unify 0 1) (by simp [pzUniqueBug])
    have h2 := hc (.equality 1 [(0, 1), (1, -1)]) (by simp [pzUniqueBug])
    simp only [specConstraintHolds, evalLin, List.foldl] at h1 h2
    rw [h1] at h2
    linarith

/-! ## The propagation fixed point (claims C9, C10) -/

/-- `constrain` only returns `Ok` once the wake set is empty (the source's
`while !self.wake.is_empty()` loop). -/
theorem constrain_ok_wake_empty :
    ∀ (f : Nat) (s s' : SearchState), constrain f s = .ok s' → s'.wake = [] := by
  intro f
  induction f with
  | zero =>
    intro s s' h
    unfold constrain at h
    by_cases hw : s.wake.isEmpty
    · simp only [hw, if_true] at h
      cases h
      exact List.isEmpty_iff.mp hw
    · simp only [hw, if_false] at h
      cases h
  | succ g ih =>
    intro s s' h
    unfold constrain at h
    by_cases hw : s.wake.isEmpty
    · simp only [hw, if_true] at h
      cases h
      exact List.isEmpty_iff.mp hw
    · simp only [hw, if_false] at h
      cases hg : gimmeLoop g g s 0 (s.vars.length - 1) with
      | div => rw [hg] at h; cases h
      | contra => rw [hg] at h; cases h
      | ok s1 =>
        rw [hg] at h
        simp only [PRes.bind_ok] at h
        by_cases hw1 : s1.wake.isEmpty
        · simp only [hw1, if_true] at h
          exact ih s1 s' h
        · simp only [hw1, if_false] at h
          cases hf : fireList g s1.wake { s1 with wake := [] } with
          | div => rw [hf] at h; cases h
          | contra => rw [hf] at h; cases h
          | ok s2 =>
            rw [hf] at h
            simp only [PRes.bind_ok] at h
            exact ih s2 s' h

/-- `constrain` on a state whose wake set is empty is the identity,
whatever the fuel. -/
theorem constrain_wake_empty_id (f : Nat) (s : SearchState) (h : s.wake = []) :
    constrain f s = .ok s := by
  unfold constrain
  simp [h]

/-! ## More concrete puzzles -/

/-- The empty puzzle (`Puzzle::new()` with no variables). -/
def pzEmpty : Puzzle := { candidates := [], constraints := [] }

/-- One variable created by `new_var()` with no candidates inserted, no
constraints. -/
def pzNoCands : Puzzle := { candidates := [.none], constraints := [] }

/-- Spec scenario 3: `v0, v1 ∈ {1,2}`, `v2 ∈ {1,2,3}` under all-different. -/
def pzAllDiffForce : Puzzle :=
  { candidates := [mkCandidates [1, 2], mkCandidates [1, 2], mkCandidates [1, 2, 3]],
    constraints := [.allDifferent [0, 1, 2]] }

/-- The search state `step` produces on `pzAllDiffForce`. -/
def stepAllDiffOut : SearchState :=
  { constraints := [.allDifferent [0, 1, 2]],
    vars := [.unassigned (.set [1, 2]), .unassigned (.set [1, 2]), .assigned 3],
    wake := [] }

/-- `x ∈ {1,2}` uniquely bears both 1 and 2; `a, b, c ∈ {3,4}`; here
`k = |U| = 4`, yet the forced assignments collide. -/
def pzDoubleForce : Puzzle :=
  { candidates := [mkCandidates [1, 2], mkCandidates [3, 4], mkCandidates [3, 4],
                   mkCandidates [3, 4]],
    constraints := [.allDifferent [0, 1, 2, 3]] }

/-- Spec scenario 4: `v0 ∈ {3}`, `v1 ∈ {0,1}` with `v0 + 2·v1 − 4 = 0`. -/
def pzEqContra : Puzzle :=
  { candidates := [mkCandidates [3], mkCandidates [0, 1]],
    constraints := [.equality (-4) [(0, 1), (1, 2)]] }

/-- `v0 ∈ {5}` (a gimme, so it is `Assigned` when the unify fires),
`v1 ∈ {4,5}`, with the declarative constraint `Unify(v0, v1)`. -/
def pzUnifyAssigned : Puzzle :=
  { candidates := [mkCandidates [5], mkCandidates [4, 5]],
    constraints := [.unify 0 1] }

/-- The state `step` produces on `pzUnifyAssigned`: the `Assigned` variable 0
ends up `Unified` (redirected), variable 1 survives unassigned with `{5}`. -/
def stepUnifyOut : SearchState :=
  { constraints := [.unify 1 1],
    vars := [.unified 1, .unassigned (.set [5])],
    wake := [] }

/-! ## Claim C9: propagation idempotence of `step` -/

/-- C9: when `step` succeeds, the propagate phase has reached a fixed point:
the returned search state has an empty wake set, and running `constrain`
again on it (with any fuel) returns `Ok` with the state unchanged — so
stepping the returned state again yields the same state. -/
theorem c9_step_fixed_point (f : Nat) (p : Puzzle) (s : SearchState)
    (h : stepM f p = .ok (some s)) :
    s.wake = [] ∧ ∀ g, constrain g s = .ok s := by
  unfold stepM at h
  by_cases hn : 0 < p.candidates.length
  · simp only [hn, if_true] at h
    cases hc : constrain f (newSearch p) with
    | div => rw [hc] at h; cases h
    | contra => rw [hc] at h; simp at h
    | ok s0 =>
      rw [hc] at h
      simp only [PRes.ok.injEq, Option.some.injEq] at h
      subst h
      have hw := constrain_ok_wake_empty f (newSearch p) s0 hc
      exact ⟨hw, fun g => constrain_wake_empty_id g s0 hw⟩
  · simp only [hn, if_false] at h
    simp at h

/-- C9 witness: `step` on the all-different puzzle of spec scenario 3. -/
theorem c9_witness :
    stepAllDiffOut.wake = [] ∧ ∀ g, constrain g stepAllDiffOut = .ok stepAllDiffOut :=
  c9_step_fixed_point 30 pzAllDiffForce stepAllDiffOut (by decide)

/-! ## Claim C10: the empty puzzle -/

/-- C10: for a puzzle with zero declared variables, `solve_any` and
`solve_unique` return `None`, `solve_all` returns no solutions, and `step`
returns `None`, whatever the fuel. -/
theorem c10_empty_puzzle (f : Nat) (p : Puzzle) (h : p.candidates = []) :
    solveAnyM f p = .ok Option.none ∧ solveUniqueM f p = .ok Option.none ∧
    solveAllM f p = .ok [] ∧ stepM f p = .ok Option.none := by
  unfold solveAnyM solveUniqueM solveAllM stepM
  simp [h]

/-- C10 witness: the literal empty puzzle. -/
theorem c10_witness :
    solveAnyM 7 pzEmpty = .ok Option.none ∧ solveUniqueM 7 pzEmpty = .ok Option.none ∧
    solveAllM 7 pzEmpty = .ok [] ∧ stepM 7 pzEmpty = .ok Option.none :=
  c10_empty_puzzle 7 pzEmpty rfl

/-! ## Claim C8: `get_min_max` on a variable with no candidates -/

/-- C8 counterexample: `get_min_max` of a variable created with no
candidates returns `Err(())` — the ordinary contradiction result channel —
whereas the claim says this situation panics instead of using that channel. -/
theorem c8_counterexample : getMinMax 5 (newSearch pzNoCands) 0 = .contra := by
  decide

/-- C8 amended: `get_min_max` reports a no-candidate variable through its
ordinary `PsResult` channel as `Err(())`; the source contains no panic on
this path. -/
theorem c8_get_min_max_err (f : Nat) (s : SearchState) (idx : VarToken)
    (hf : 0 < f) (h : s.vars[idx]? = some (.unassigned .none)) :
    getMinMax f s idx = .contra := by
  cases f with
  | zero => exact absurd hf (lt_irrefl 0)
  | succ g => simp [getMinMax, resolveVar, h]

/-- C8 witness. -/
theorem c8_witness : getMinMax 3 (newSearch pzNoCands) 0 = .contra :=
  c8_get_min_max_err 3 (newSearch pzNoCands) 0 (by decide) (by decide)

/-! ## Claim C7: `AllDifferent::substitute` -/

/-- C7 counterexample: with `from = 3` and `to = 5`, neither of which occurs
in the all-different, `substitute` returns `Err(())`; the claim says every
case except "`from` and `to` both present" returns ok. -/
theorem c7_counterexample :
    (Constraint.allDifferent [0, 1]).substituteC 3 5 = Option.none ∧
    (3 : VarToken) ∉ [0, 1] ∧ (5 : VarToken) ∉ ([0, 1] : List VarToken) := by
  refine ⟨by decide, by decide, by decide⟩

/-- C7 amended: `AllDifferent::substitute(from, to)` returns `Err(())` iff
`from` does not occur in the variable list or `to` does; otherwise it
replaces the first occurrence of `from` by `to`. -/
theorem c7_substitute_characterization (vs : List VarToken) (vfrom vto : VarToken) :
    ((Constraint.allDifferent vs).substituteC vfrom vto = Option.none ↔
      (vfrom ∉ vs ∨ vto ∈ vs)) ∧
    ∀ c', (Constraint.allDifferent vs).substituteC vfrom vto = some c' →
      ∃ i, (∃ hi : i < vs.length, vs[i] = vfrom ∧
              ∀ j (hj : j < vs.length), j < i → vs[j] ≠ vfrom) ∧
        c' = .allDifferent (vs.set i vto) := by
  have hcont : vs.contains vto = true ↔ vto ∈ vs :=
    ⟨fun h => List.elem_iff.mp h, fun h => List.elem_iff.mpr h⟩
  cases hidx : List.findIdx? (fun v => v == vfrom) vs with
  | none =>
    have hnm : vfrom ∉ vs := by
      intro hmem
      have h2 := List.findIdx?_eq_none_iff.mp hidx vfrom hmem
      simp at h2
    constructor
    · rw [Constraint.substituteC.eq_1, hidx]
      simp [hnm]
    · intro c' hc'
      rw [Constraint.substituteC.eq_1, hidx] at hc'
      cases hc'
  | some i =>
    obtain ⟨hi, hbeq, hfirst⟩ := List.findIdx?_eq_some_iff_getElem.mp hidx
    have hgi : vs[i] = vfrom := by simpa using hbeq
    have hm : vfrom ∈ vs := hgi ▸ List.getElem_mem hi
    by_cases htomem : vto ∈ vs
    · have hc : vs.contains vto = true := hcont.mpr htomem
      constructor
      · rw [Constraint.substituteC.eq_1, hidx]
        simp [hc, htomem]
      · intro c' hc'
        rw [Constraint.substituteC.eq_1, hidx] at hc'
        simp [hc] at hc'
        exact absurd htomem hc'.1
    · have hc : vs.contains vto = false := by
        cases h : vs.contains vto
        · rfl
        · exact absurd (hcont.mp h) htomem
      constructor
      · rw [Constraint.substituteC.eq_1, hidx]
        simp [hc, hm, htomem]
      · intro c' hc'
        rw [Constraint.substituteC.eq_1, hidx] at hc'
        simp only [hc, Bool.false_eq_true, if_false] at hc'
        refine ⟨i, ⟨hi, hgi, ?_⟩, ?_⟩
        · intro j hjlen hji
          have h4 := hfirst j hji
          simpa using h4
        · exact (Option.some_inj.mp hc').symm

/-- C7 witness: substituting `0 → 2` in all-different over `[0, 1]`
succeeds and rewrites the first (only) occurrence. -/
theorem c7_witness :
    (Constraint.allDifferent [0, 1]).substituteC 2 0 = Option.none :=
  (c7_substitute_characterization [0, 1] 2 0).1.mpr (Or.inl (by decide))

/-! ## Claim C5: the orientation of `PuzzleSearch::unify` -/

/-- A non-`Unified` cell resolves to itself. -/
theorem resolveVar_not_unified (f : Nat) (s : SearchState) (idx : VarToken)
    (vst : VarState) (h : s.vars[idx]? = some vst) (hnu : ∀ t, vst ≠ .unified t)
    (hf : 0 < f) : resolveVar f s idx = .ok idx := by
  cases f with
  | zero => exact absurd hf (lt_irrefl 0)
  | succ g =>
    unfold resolveVar
    rw [h]
    cases vst with
    | assigned v => rfl
    | unassigned cs => rfl
    | unified t => exact absurd rfl (hnu t)

/-- Index bound from a successful `getElem?`. -/
theorem lt_length_of_getElem? {α : Type} (l : List α) (i : Nat) (a : α)
    (h : l[i]? = some a) : i < l.length := by
  rcases List.getElem?_eq_some.mp h with ⟨hlt, -⟩
  exact hlt

/-- On a cell that is `Unassigned`, a successful `set_candidate` leaves every
other variable untouched and leaves the target `Unassigned`. -/
theorem setCandidate_ok_at_unassigned (f : Nat) (s : SearchState) (b : VarToken)
    (val : Val) (cs : Candidates) (s2 : SearchState)
    (hb : s.vars[b]? = some (.unassigned cs))
    (h : setCandidate f s b val = .ok s2) :
    (∀ x, x ≠ b → s2.vars[x]? = s.vars[x]?) ∧
    ∃ cs', s2.vars[b]? = some (.unassigned cs') := by
  cases f with
  | zero => simp [setCandidate, resolveVar] at h
  | succ g =>
    have hres : resolveVar (Nat.succ g) s b = .ok b :=
      resolveVar_not_unified _ _ _ _ hb (by intro t h'; cases h') (Nat.succ_pos g)
    unfold setCandidate at h
    rw [hres] at h
    simp only [PRes.bind_ok] at h
    split at h
    · rename_i v' heq
      rw [hb] at heq
      simp at heq
    · rename_i heq
      cases h
    · rename_i v' heq
      rw [hb] at heq
      simp only [Option.some_inj, VarState.unassigned.injEq] at heq
      split at h
      · cases h
        exact ⟨fun x _ => rfl, ⟨cs, hb⟩⟩
      · cases h
    · rename_i l heq
      split at h
      · cases h
        refine ⟨fun x hx => List.getElem?_set_ne (fun hbx => hx hbx.symm), ?_⟩
        exact ⟨.set [val],
          List.getElem?_set_self (lt_length_of_getElem? _ _ _ hb)⟩
      · cases h
    · rename_i heq
      cases h

/-- The tail of `unify` with `vfrom` `Assigned` and `vto` `Unassigned`: on
success, `vfrom`'s cell is marked `Unified(vto)` and `vto` stays
`Unassigned`. -/
theorem stateUnifyCore_assigned_redirects (f : Nat) (s : SearchState)
    (a b : VarToken) (v : Val) (cs : Candidates) (s' : SearchState)
    (ha : s.vars[a]? = some (.assigned v))
    (hb : s.vars[b]? = some (.unassigned cs))
    (h : stateUnifyCore f s a b = .ok s') :
    s'.vars[a]? = some (.unified b) ∧
    ∃ cs', s'.vars[b]? = some (.unassigned cs') := by
  have hab : a ≠ b := by
    intro hEq
    rw [hEq, hb] at ha
    cases ha
  have halen : a < s.vars.length := lt_length_of_getElem? _ _ _ ha
  unfold stateUnifyCore at h
  cases hsub : substituteAll (watchers s.constraints a) s.constraints a b with
  | div => rw [hsub] at h; cases h
  | contra => rw [hsub] at h; cases h
  | ok cs2 =>
    rw [hsub] at h
    simp only [PRes.bind_ok] at h
    by_cases hw : (watchers cs2 a).isEmpty
    · simp only [hw, if_true] at h
      split at h
      · rename_i v2 heq
        have hv2 : v2 = v := by
          have heq2 : s.vars[a]? = some (VarState.assigned v2) := heq
          rw [ha] at heq2
          injection heq2 with heq3
          injection heq3 with heq4
          exact heq4.symm
        cases hset : setCandidate f
            { constraints := cs2, vars := s.vars,
              wake := wakeUnion s.wake (watchers cs2 b) } b v2 with
        | div => rw [hset] at h; cases h
        | contra => rw [hset] at h; cases h
        | ok s2 =>
          rw [hset] at h
          simp only [PRes.bind_ok] at h
          cases h
          obtain ⟨hother, cs', hbcell⟩ :=
            setCandidate_ok_at_unassigned f
              { constraints := cs2, vars := s.vars,
                wake := wakeUnion s.wake (watchers cs2 b) } b v2 cs s2 hb hset
          have hacell : s2.vars[a]? = some (.assigned v) := (hother a hab).trans ha
          constructor
          · exact List.getElem?_set_self (lt_length_of_getElem? _ _ _ hacell)
          · exact ⟨cs', (List.getElem?_set_ne hab).trans hbcell⟩
      · rename_i l1 heq
        have heq2 : s.vars[a]? = some (VarState.unassigned (Candidates.set l1)) := heq
        rw [ha] at heq2
        cases heq2
      · cases h
        constructor
        · exact List.getElem?_set_self halen
        · exact ⟨cs, (List.getElem?_set_ne hab).trans hb⟩
    · simp only [hw, Bool.false_eq_true, if_false] at h
      cases h

/-- C5 counterexample: on `pzUnifyAssigned`, `step` triggers `unify` with
variable 0 `Assigned` (by a gimme) and variable 1 `Unassigned`; the result
redirects the `Assigned` variable 0 (`Unified 1`) and leaves variable 1
`Unassigned` with `{5}` — the opposite orientation of the claim. -/
theorem c5_counterexample :
    stepM 30 pzUnifyAssigned = .ok (some stepUnifyOut) ∧
    stepUnifyOut.vars[0]? = some (.unified 1) ∧
    stepUnifyOut.vars[1]? = some (.unassigned (.set [5])) := by
  refine ⟨by decide, by decide, by decide⟩

/-- C5 amended: whenever `unify(a, b)` (in either argument order) is invoked
with exactly one of the two variables `Assigned`, the source keeps the
`Assigned` variable as `from` and the `Unassigned` one as `to`; after a
successful unify, the `Assigned` variable's cell is `Redirected` to the
`Unassigned` variable, which survives as the redirect target. -/
theorem c5_unify_redirects_assigned (f : Nat) (s : SearchState)
    (a b : VarToken) (v : Val) (cs : Candidates) (s' : SearchState)
    (ha : s.vars[a]? = some (.assigned v))
    (hb : s.vars[b]? = some (.unassigned cs))
    (h : stateUnify f s a b = .ok s' ∨ stateUnify f s b a = .ok s') :
    s'.vars[a]? = some (.unified b) ∧
    ∃ cs', s'.vars[b]? = some (.unassigned cs') := by
  have hab : a ≠ b := by
    intro hEq
    rw [hEq, hb] at ha
    cases ha
  rcases h with h | h
  · unfold stateUnify at h
    rw [if_neg hab, ha, hb] at h
    exact stateUnifyCore_assigned_redirects f s a b v cs s' ha hb h
  · unfold stateUnify at h
    rw [if_neg (Ne.symm hab), hb, ha] at h
    exact stateUnifyCore_assigned_redirects f s a b v cs s' ha hb h

/-- C5 witness: the state reached inside `step` on `pzUnifyAssigned` just
before its unify fires. -/
theorem c5_witness :
    (SearchState.mk [.unify 1 1] [.unified 1, .unassigned (.set [5])] []).vars[0]?
        = some (.unified 1) ∧
    ∃ cs', (SearchState.mk [.unify 1 1] [.unified 1, .unassigned (.set [5])]
        []).vars[1]? = some (.unassigned cs') :=
  c5_unify_redirects_assigned 20
    (SearchState.mk [.unify 0 1] [.assigned 5, .unassigned (.set [4, 5])] [])
    0 1 5 (.set [4, 5]) _ (by decide) (by decide) (Or.inl (by decide))

/-! ## Claim C6: non-empty domains after propagation

`noEmptyVars` is the branch-phase invariant: every `Unassigned` cell holds at
least one candidate.  The lemmas below show every state mutation of the
propagation phase preserves it (a successful mutation never leaves an empty
domain behind), hence `constrain` preserves it. -/

/-- Every `Unassigned` cell has a non-empty domain. -/
def noEmptyVars (l : List VarState) : Prop :=
  ∀ (idx : Nat) (cs : Candidates),
    l[idx]? = some (VarState.unassigned cs) → 0 < cs.len

theorem noEmptyVars_set (l : List VarState) (j : Nat) (vst : VarState)
    (h : noEmptyVars l) (hv : ∀ cs, vst = .unassigned cs → 0 < cs.len) :
    noEmptyVars (l.set j vst) := by
  intro idx cs hidx
  rw [List.getElem?_set] at hidx
  by_cases hij : j = idx
  · rw [if_pos hij] at hidx
    by_cases hlen : j < l.length
    · rw [if_pos hlen] at hidx
      injection hidx with h2
      exact hv cs h2
    · rw [if_neg hlen] at hidx
      cases hidx
  · rw [if_neg hij] at hidx
    exact h idx cs hidx

/-- A successful `set_candidate` either leaves the cells unchanged or shrinks
one cell to the singleton `{val}`. -/
theorem setCandidate_ok_shape (f : Nat) (s : SearchState) (var : VarToken)
    (val : Val) (s' : SearchState) (h : setCandidate f s var val = .ok s') :
    s'.vars = s.vars ∨ ∃ j, s'.vars = s.vars.set j (.unassigned (.set [val])) := by
  unfold setCandidate at h
  cases hres : resolveVar f s var with
  | div => rw [hres] at h; cases h
  | contra => rw [hres] at h; cases h
  | ok j =>
    rw [hres] at h
    simp only [PRes.bind_ok] at h
    split at h
    · split at h
      · cases h; exact Or.inl rfl
      · cases h
    · cases h
    · split at h
      · cases h; exact Or.inl rfl
      · cases h
    · split at h
      · cases h; exact Or.inr ⟨j, rfl⟩
      · cases h
    · cases h

/-- A successful `remove_candidate` either leaves the cells unchanged or
shrinks one cell to a non-empty set. -/
theorem removeCandidate_ok_shape (f : Nat) (s : SearchState) (var : VarToken)
    (val : Val) (s' : SearchState) (h : removeCandidate f s var val = .ok s') :
    s'.vars = s.vars ∨
    ∃ j l', s'.vars = s.vars.set j (.unassigned (.set l')) ∧ l' ≠ [] := by
  unfold removeCandidate at h
  cases hres : resolveVar f s var with
  | div => rw [hres] at h; cases h
  | contra => rw [hres] at h; cases h
  | ok j =>
    rw [hres] at h
    simp only [PRes.bind_ok] at h
    split at h
    · split at h
      · cases h; exact Or.inl rfl
      · cases h
    · cases h
    · split at h
      · cases h; exact Or.inl rfl
      · cases h
    · rename_i l heq
      split at h
      · split at h
        · cases h
        · rename_i hne
          cases h
          refine Or.inr ⟨j, _, rfl, ?_⟩
          intro hnil
          rw [hnil] at hne
          exact hne rfl
      · split at h
        · cases h
        · cases h; exact Or.inl rfl
    · cases h

/-- A successful `bound_candidate_range` either leaves the cells unchanged or
shrinks one cell to a non-empty set. -/
theorem boundCandidateRange_ok_shape (f : Nat) (s : SearchState)
    (var : VarToken) (mn mx : Val) (r : (Val × Val) × SearchState)
    (h : boundCandidateRange f s var mn mx = .ok r) :
    r.2.vars = s.vars ∨
    ∃ j l', r.2.vars = s.vars.set j (.unassigned (.set l')) ∧ l' ≠ [] := by
  unfold boundCandidateRange at h
  cases hres : resolveVar f s var with
  | div => rw [hres] at h; cases h
  | contra => rw [hres] at h; cases h
  | ok j =>
    rw [hres] at h
    simp only [PRes.bind_ok] at h
    split at h
    · split at h
      · cases h; exact Or.inl rfl
      · cases h
    · cases h
    · split at h
      · cases h; exact Or.inl rfl
      · cases h
    · rename_i l heq
      split at h
      · split at h
        · split at h
          · rename_i a b l' hhead hlast
            cases h
            refine Or.inr ⟨j, _, rfl, ?_⟩
            intro hnil
            rw [hnil] at hhead
            cases hhead
          · cases h
        · cases h; exact Or.inl rfl
      · cases h
    · cases h

theorem setCandidate_noEmpty (f : Nat) (s : SearchState) (var : VarToken)
    (val : Val) (s' : SearchState) (h : setCandidate f s var val = .ok s')
    (hne : noEmptyVars s.vars) : noEmptyVars s'.vars := by
  rcases setCandidate_ok_shape f s var val s' h with h1 | ⟨j, h1⟩
  · rw [h1]; exact hne
  · rw [h1]
    refine noEmptyVars_set _ _ _ hne ?_
    intro cs hcs
    cases hcs
    exact Nat.succ_pos 0

theorem removeCandidate_noEmpty (f : Nat) (s : SearchState) (var : VarToken)
    (val : Val) (s' : SearchState) (h : removeCandidate f s var val = .ok s')
    (hne : noEmptyVars s.vars) : noEmptyVars s'.vars := by
  rcases removeCandidate_ok_shape f s var val s' h with h1 | ⟨j, l', h1, hl⟩
  · rw [h1]; exact hne
  · rw [h1]
    refine noEmptyVars_set _ _ _ hne ?_
    intro cs hcs
    cases hcs
    simpa [Candidates.len, List.length_pos] using hl

theorem boundCandidateRange_noEmpty (f : Nat) (s : SearchState)
    (var : VarToken) (mn mx : Val) (r : (Val × Val) × SearchState)
    (h : boundCandidateRange f s var mn mx = .ok r)
    (hne : noEmptyVars s.vars) : noEmptyVars r.2.vars := by
  rcases boundCandidateRange_ok_shape f s var mn mx r h with h1 | ⟨j, l', h1, hl⟩
  · rw [h1]; exact hne
  · rw [h1]
    refine noEmptyVars_set _ _ _ hne ?_
    intro cs hcs
    cases hcs
    simpa [Candidates.len, List.length_pos] using hl

theorem stateUnifyCore_noEmpty (f : Nat) (s : SearchState) (vfrom vto : VarToken)
    (s' : SearchState) (h : stateUnifyCore f s vfrom vto = .ok s')
    (hne : noEmptyVars s.vars) : noEmptyVars s'.vars := by
  have hunified : ∀ cs : Candidates, VarState.unified vto = .unassigned cs → 0 < cs.len := by
    intro cs hcs; cases hcs
  unfold stateUnifyCore at h
  cases hsub : substituteAll (watchers s.constraints vfrom) s.constraints vfrom vto with
  | div => rw [hsub] at h; cases h
  | contra => rw [hsub] at h; cases h
  | ok cs2 =>
    rw [hsub] at h
    simp only [PRes.bind_ok] at h
    by_cases hw : (watchers cs2 vfrom).isEmpty
    · simp only [hw, if_true] at h
      split at h
      · rename_i v2 heq
        cases hset : setCandidate f
            { constraints := cs2, vars := s.vars,
              wake := wakeUnion s.wake (watchers cs2 vto) } vto v2 with
        | div => rw [hset] at h; cases h
        | contra => rw [hset] at h; cases h
        | ok s2 =>
          rw [hset] at h
          simp only [PRes.bind_ok] at h
          cases h
          exact noEmptyVars_set _ _ _
            (setCandidate_noEmpty f _ vto v2 s2 hset hne) hunified
      · split at h
        · split at h
          · cases h
          · rename_i hl2
            cases h
            refine noEmptyVars_set _ _ _ (noEmptyVars_set _ _ _ hne ?_) hunified
            intro cs hcs
            cases hcs
            rename_i l2' hx
            simp only [Candidates.len, List.length_pos]
            intro hnil
            rw [hnil] at hl2
            exact hl2 rfl
        · cases h
          exact noEmptyVars_set _ _ _ hne hunified
      · cases h
        exact noEmptyVars_set _ _ _ hne hunified
    · simp only [hw, Bool.false_eq_true, if_false] at h
      cases h

theorem stateUnify_noEmpty (f : Nat) (s : SearchState) (a b : VarToken)
    (s' : SearchState) (h : stateUnify f s a b = .ok s')
    (hne : noEmptyVars s.vars) : noEmptyVars s'.vars := by
  unfold stateUnify at h
  by_cases hab : a = b
  · rw [if_pos hab] at h; cases h; exact hne
  · rw [if_neg hab] at h
    split at h
    · split at h
      · cases h; exact hne
      · cases h
    · cases h
    · cases h
    · exact stateUnifyCore_noEmpty f s b a s' h hne
    · exact stateUnifyCore_noEmpty f s a b s' h hne
    · exact stateUnifyCore_noEmpty f s a b s' h hne
    · cases h

theorem adOnAssigned_noEmpty (f : Nat) (vs : List VarToken) :
    ∀ (s : SearchState) (var : VarToken) (val : Val) (s' : SearchState),
      adOnAssigned f s vs var val = .ok s' → noEmptyVars s.vars →
      noEmptyVars s'.vars := by
  induction vs with
  | nil =>
    intro s var val s' h hne
    cases h
    exact hne
  | cons v rest ih =>
    intro s var val s' h hne
    unfold adOnAssigned at h
    by_cases hv : v ≠ var
    · rw [if_pos hv] at h
      cases hrem : removeCandidate f s v val with
      | div => rw [hrem] at h; cases h
      | contra => rw [hrem] at h; cases h
      | ok s1 =>
        rw [hrem] at h
        simp only [PRes.bind_ok] at h
        exact ih s1 var val s' h (removeCandidate_noEmpty f s v val s1 hrem hne)
    · rw [if_neg hv] at h
      exact ih s var val s' h hne

theorem eqScan_noEmpty (f : Nat) (coef : List (VarToken × Rat)) :
    ∀ (s : SearchState) (sum : Rat) (acc : Option (VarToken × Rat))
      (s' : SearchState), eqScan f s coef sum acc = .ok s' →
      noEmptyVars s.vars → noEmptyVars s'.vars := by
  induction coef with
  | nil =>
    intro s sum acc s' h hne
    cases acc with
    | none =>
      simp only [eqScan] at h
      split at h
      · cases h; exact hne
      · cases h
    | some p =>
      rcases p with ⟨x, c⟩
      simp only [eqScan] at h
      split at h
      · exact setCandidate_noEmpty f s x _ s' h hne
      · cases h
  | cons p rest ih =>
    intro s sum acc s' h hne
    rcases p with ⟨y, c⟩
    simp only [eqScan] at h
    cases hga : getAssigned f s y with
    | div => rw [hga] at h; cases h
    | contra => rw [hga] at h; cases h
    | ok a =>
      rw [hga] at h
      simp only [PRes.bind_ok] at h
      cases a with
      | some val => exact ih s _ acc s' h hne
      | none =>
        cases acc with
        | some q => cases h; exact hne
        | none => exact ih s sum _ s' h hne

theorem onAssigned_noEmpty (c : Constraint) (f : Nat) (s : SearchState)
    (var : VarToken) (val : Val) (s' : SearchState)
    (h : c.onAssigned f s var val = .ok s') (hne : noEmptyVars s.vars) :
    noEmptyVars s'.vars := by
  cases c with
  | allDifferent vs => exact adOnAssigned_noEmpty f vs s var val s' h hne
  | equality k coef => exact eqScan_noEmpty f coef s k Option.none s' h hne
  | unify a b => cases h; exact hne

theorem fireAssignedGo_noEmpty (f : Nat) (idx : VarToken) (val : Val)
    (cidxs : List Nat) :
    ∀ (s s' : SearchState), fireAssignedGo f idx val cidxs s = .ok s' →
      noEmptyVars s.vars → noEmptyVars s'.vars := by
  induction cidxs with
  | nil =>
    intro s s' h hne
    cases h
    exact hne
  | cons cidx rest ih =>
    intro s s' h hne
    unfold fireAssignedGo at h
    by_cases hc : (watchers s.constraints idx).contains cidx
    · simp only [hc, if_true] at h
      cases hcon : s.constraints[cidx]? with
      | none => simp only [hcon] at h; cases h
      | some c =>
        simp only [hcon] at h
        cases hca : c.onAssigned f s idx val with
        | div => rw [hca] at h; cases h
        | contra => rw [hca] at h; cases h
        | ok s1 =>
          rw [hca] at h
          simp only [PRes.bind_ok] at h
          exact ih s1 s' h (onAssigned_noEmpty c f s idx val s1 hca hne)
    · simp only [hc, Bool.false_eq_true, if_false] at h
      exact ih s s' h hne

theorem assign_noEmpty (f : Nat) (s : SearchState) (idx : VarToken) (val : Val)
    (s' : SearchState) (h : assign f s idx val = .ok s')
    (hne : noEmptyVars s.vars) : noEmptyVars s'.vars := by
  unfold assign at h
  refine fireAssignedGo_noEmpty f idx val _ _ s' h ?_
  exact noEmptyVars_set _ _ _ hne (by intro cs hcs; cases hcs)

theorem adAssignForced_noEmpty (f : Nat) (tbl : List (Val × Option VarToken)) :
    ∀ (s s' : SearchState), adAssignForced f s tbl = .ok s' →
      noEmptyVars s.vars → noEmptyVars s'.vars := by
  induction tbl with
  | nil =>
    intro s s' h hne
    cases h
    exact hne
  | cons p rest ih =>
    intro s s' h hne
    cases p with
    | mk val o =>
      cases o with
      | none => exact ih s s' h hne
      | some var =>
        unfold adAssignForced at h
        cases hset : setCandidate f s var val with
        | div => rw [hset] at h; cases h
        | contra => rw [hset] at h; cases h
        | ok s1 =>
          rw [hset] at h
          simp only [PRes.bind_ok] at h
          exact ih s1 s' h (setCandidate_noEmpty f s var val s1 hset hne)

theorem adOnUpdated_noEmpty (f : Nat) (s : SearchState) (vs : List VarToken)
    (s' : SearchState) (h : adOnUpdated f s vs = .ok s')
    (hne : noEmptyVars s.vars) : noEmptyVars s'.vars := by
  unfold adOnUpdated at h
  cases hb : adBuild f s vs (0, []) with
  | div => rw [hb] at h; cases h
  | contra => rw [hb] at h; cases h
  | ok kt =>
    rw [hb] at h
    simp only [PRes.bind_ok] at h
    split at h
    · cases h
    · split at h
      · exact adAssignForced_noEmpty f kt.2 s s' h hne
      · cases h; exact hne

theorem eqLoop_noEmpty (f : Nat) (coef : List (VarToken × Rat)) :
    ∀ (g iters pos : Nat) (smn smx : Rat) (s s' : SearchState),
      eqLoop f coef g iters pos smn smx s = .ok s' →
      noEmptyVars s.vars → noEmptyVars s'.vars := by
  intro g
  induction g with
  | zero =>
    intro iters pos smn smx s s' h hne
    cases h
  | succ g2 ih =>
    intro iters pos smn smx s s' h hne
    cases iters with
    | zero => cases h; exact hne
    | succ iters2 =>
      unfold eqLoop at h
      split at h
      · cases h
      · cases hco : coef[pos % coef.length]? with
        | none => rw [hco] at h; cases h
        | some p =>
          obtain ⟨x, c⟩ := p
          simp only [hco] at h
          cases hga : getAssigned f s x with
          | div => rw [hga] at h; cases h
          | contra => rw [hga] at h; cases h
          | ok a =>
            rw [hga] at h
            simp only [PRes.bind_ok] at h
            cases a with
            | some v => exact ih iters2 (pos + 1) smn smx s s' h hne
            | none =>
              cases hmm : getMinMax f s x with
              | div => rw [hmm] at h; cases h
              | contra => rw [hmm] at h; cases h
              | ok mm =>
                rw [hmm] at h
                simp only [PRes.bind_ok] at h
                by_cases hcpos : c > 0
                · simp only [if_pos hcpos] at h
                  split at h
                  · cases hbr : boundCandidateRange f s x
                        (ratCeil ((c * (mm.2 : Rat) - smx) / c))
                        (ratFloor ((c * (mm.1 : Rat) - smn) / c)) with
                    | div => rw [hbr] at h; cases h
                    | contra => rw [hbr] at h; cases h
                    | ok r =>
                      rw [hbr] at h
                      simp only [PRes.bind_ok] at h
                      exact ih coef.length (pos + 1) _ _ r.2 s' h
                        (boundCandidateRange_noEmpty f s x _ _ r hbr hne)
                  · exact ih iters2 (pos + 1) smn smx s s' h hne
                · simp only [if_neg hcpos] at h
                  split at h
                  · cases hbr : boundCandidateRange f s x
                        (ratCeil ((c * (mm.2 : Rat) - smn) / c))
                        (ratFloor ((c * (mm.1 : Rat) - smx) / c)) with
                    | div => rw [hbr] at h; cases h
                    | contra => rw [hbr] at h; cases h
                    | ok r =>
                      rw [hbr] at h
                      simp only [PRes.bind_ok] at h
                      exact ih coef.length (pos + 1) _ _ r.2 s' h
                        (boundCandidateRange_noEmpty f s x _ _ r hbr hne)
                  · exact ih iters2 (pos + 1) smn smx s s' h hne

theorem eqOnUpdated_noEmpty (f : Nat) (s : SearchState) (k : Rat)
    (coef : List (VarToken × Rat)) (s' : SearchState)
    (h : eqOnUpdated f s k coef = .ok s') (hne : noEmptyVars s.vars) :
    noEmptyVars s'.vars := by
  unfold eqOnUpdated at h
  cases hsu : eqSums f s coef k k with
  | div => rw [hsu] at h; cases h
  | contra => rw [hsu] at h; cases h
  | ok mm =>
    rw [hsu] at h
    simp only [PRes.bind_ok] at h
    exact eqLoop_noEmpty f coef f coef.length 0 mm.1 mm.2 s s' h hne

theorem onUpdated_noEmpty (c : Constraint) (f : Nat) (s : SearchState)
    (s' : SearchState) (h : c.onUpdated f s = .ok s')
    (hne : noEmptyVars s.vars) : noEmptyVars s'.vars := by
  cases c with
  | allDifferent vs => exact adOnUpdated_noEmpty f s vs s' h hne
  | equality k coef => exact eqOnUpdated_noEmpty f s k coef s' h hne
  | unify a b =>
    simp only [Constraint.onUpdated] at h
    by_cases hab : a ≠ b
    · rw [if_pos hab] at h
      exact stateUnify_noEmpty f s a b s' h hne
    · rw [if_neg hab] at h
      cases h
      exact hne

theorem fireList_noEmpty (f : Nat) (cidxs : List Nat) :
    ∀ (s s' : SearchState), fireList f cidxs s = .ok s' →
      noEmptyVars s.vars → noEmptyVars s'.vars := by
  induction cidxs with
  | nil =>
    intro s s' h hne
    cases h
    exact hne
  | cons cidx rest ih =>
    intro s s' h hne
    unfold fireList at h
    cases hcon : s.constraints[cidx]? with
    | none => simp only [hcon] at h; cases h
    | some c =>
      simp only [hcon] at h
      cases hcu : c.onUpdated f s with
      | div => rw [hcu] at h; cases h
      | contra => rw [hcu] at h; cases h
      | ok s1 =>
        rw [hcu] at h
        simp only [PRes.bind_ok] at h
        exact ih s1 s' h (onUpdated_noEmpty c f s s1 hcu hne)

theorem gimmeLoop_noEmpty (f : Nat) :
    ∀ (g : Nat) (s : SearchState) (idx last : Nat) (s' : SearchState),
      gimmeLoop f g s idx last = .ok s' → noEmptyVars s.vars →
      noEmptyVars s'.vars := by
  intro g
  induction g with
  | zero =>
    intro s idx last s' h hne
    cases h
  | succ g2 ih =>
    intro s idx last s' h hne
    unfold gimmeLoop at h
    split at h
    · split at h
      · cases h
      · cases hass : assign f s idx _ with
        | div => rw [hass] at h; cases h
        | contra => rw [hass] at h; cases h
        | ok s1 =>
          rw [hass] at h
          simp only [PRes.bind_ok] at h
          exact ih s1 _ idx s' h (assign_noEmpty f s idx _ s1 hass hne)
      · split at h
        · cases h; exact hne
        · exact ih s _ last s' h hne
    · split at h
      · cases h; exact hne
      · exact ih s _ last s' h hne

theorem constrain_noEmpty :
    ∀ (f : Nat) (s s' : SearchState), constrain f s = .ok s' →
      noEmptyVars s.vars → noEmptyVars s'.vars := by
  intro f
  induction f with
  | zero =>
    intro s s' h hne
    unfold constrain at h
    by_cases hw : s.wake.isEmpty
    · simp only [hw, if_true] at h
      cases h
      exact hne
    · simp only [hw, if_false] at h
      cases h
  | succ g ih =>
    intro s s' h hne
    unfold constrain at h
    by_cases hw : s.wake.isEmpty
    · simp only [hw, if_true] at h
      cases h
      exact hne
    · simp only [hw, if_false] at h
      cases hg : gimmeLoop g g s 0 (s.vars.length - 1) with
      | div => rw [hg] at h; cases h
      | contra => rw [hg] at h; cases h
      | ok s1 =>
        rw [hg] at h
        simp only [PRes.bind_ok] at h
        have hne1 : noEmptyVars s1.vars :=
          gimmeLoop_noEmpty g g s 0 (s.vars.length - 1) s1 hg hne
        by_cases hw1 : s1.wake.isEmpty
        · simp only [hw1, if_true] at h
          exact ih s1 s' h hne1
        · simp only [hw1, if_false] at h
          cases hf : fireList g s1.wake { s1 with wake := [] } with
          | div => rw [hf] at h; cases h
          | contra => rw [hf] at h; cases h
          | ok s2 =>
            rw [hf] at h
            simp only [PRes.bind_ok] at h
            exact ih s2 s' h (fireList_noEmpty g s1.wake _ s2 hf hne1)

/-- A cell is not an empty `Unassigned` domain (decidable form). -/
def cellNonemptyB : VarState → Bool
  | .unassigned cs => decide (0 < cs.len)
  | _ => true

/-- `noEmptyVars` follows from the decidable per-cell check. -/
theorem noEmptyVars_of_all (l : List VarState) (h : l.all cellNonemptyB = true) :
    noEmptyVars l := by
  intro idx cs hidx
  have hmem : VarState.unassigned cs ∈ l := by
    rcases List.getElem?_eq_some.mp hidx with ⟨hlt, hEq⟩
    rw [← hEq]
    exact List.getElem_mem hlt
  have h2 := List.all_eq_true.mp h _ hmem
  simpa [cellNonemptyB] using h2

/-- C6 counterexample: for the puzzle with one `new_var()` (no candidates)
and no constraints, the wake set starts empty, so `constrain` succeeds
without a single gimme pass; the branch point then selects the variable
with a domain of size zero, which the claim says is impossible. -/
theorem c6_counterexample :
    constrain 5 (newSearch pzNoCands) = .ok (newSearch pzNoCands) ∧
    nextUnassigned (newSearch pzNoCands) = some (0, .unassigned .none) ∧
    Candidates.none.len = 0 ∧
    solveAnyM 5 pzNoCands = .ok Option.none := by
  refine ⟨by decide, by decide, by decide, by decide⟩

/-- C6 amended: provided every `Unassigned` cell entering the propagate
phase has a non-empty domain (true of every puzzle whose variables were all
given at least one candidate), the state in which the branch phase starts —
`constrain` returned ok — again has no `Unassigned` cell with an empty
domain.  Only a variable created with no candidates in a puzzle whose
propagation never runs (empty wake set) can reach the branch point with an
empty domain, and the branch code guards that case. -/
theorem c6_branch_nonempty (f : Nat) (s s' : SearchState)
    (hinit : noEmptyVars s.vars) (h : constrain f s = .ok s') :
    ∀ (idx : Nat) (cs : Candidates),
      s'.vars[idx]? = some (VarState.unassigned cs) → 0 < cs.len :=
  constrain_noEmpty f s s' h hinit

/-- C6 witness: the all-different puzzle of spec scenario 3, at the cell of
variable 0 in the state `constrain` returns. -/
theorem c6_witness :
    constrain 30 (newSearch pzAllDiffForce) = .ok stepAllDiffOut ∧
    stepAllDiffOut.vars[0]? =
      some (VarState.unassigned (Candidates.set [1, 2])) ∧
    0 < (Candidates.set [1, 2]).len :=
  ⟨by decide, by decide,
   c6_branch_nonempty 30 (newSearch pzAllDiffForce) stepAllDiffOut
     (noEmptyVars_of_all _ (by decide)) (by decide) 0 (Candidates.set [1, 2])
     (by decide)⟩

/-! ## Claim C4: `Equality::on_assigned` -/

/-- `sum + Σ coefᵢ · ν(xᵢ)`: the value the scan accumulates when the listed
variables are assigned according to `ν`. -/
def evalWith (ν : VarToken → Val) (sum : Rat) (coef : List (VarToken × Rat)) : Rat :=
  coef.foldl (fun acc p => acc + p.2 * ((ν p.1 : Int) : Rat)) sum

theorem evalWith_nil (ν : VarToken → Val) (sum : Rat) : evalWith ν sum [] = sum := rfl

theorem evalWith_cons (ν : VarToken → Val) (sum : Rat) (y : VarToken) (c : Rat)
    (rest : List (VarToken × Rat)) :
    evalWith ν sum ((y, c) :: rest) = evalWith ν (sum + c * ((ν y : Int) : Rat)) rest := rfl

theorem evalWith_append (ν : VarToken → Val) (sum : Rat)
    (l1 l2 : List (VarToken × Rat)) :
    evalWith ν sum (l1 ++ l2) = evalWith ν (evalWith ν sum l1) l2 := by
  unfold evalWith
  rw [List.foldl_append]

/-- The scan walks over a prefix of assigned variables by accumulating their
terms, whatever the remembered unassigned slot. -/
theorem eqScan_assigned_front (f : Nat) (s : SearchState) (ν : VarToken → Val) :
    ∀ (pre rest : List (VarToken × Rat)) (sum : Rat)
      (acc : Option (VarToken × Rat)),
      (∀ p ∈ pre, getAssigned f s p.1 = .ok (some (ν p.1))) →
      eqScan f s (pre ++ rest) sum acc = eqScan f s rest (evalWith ν sum pre) acc := by
  intro pre
  induction pre with
  | nil => intro rest sum acc _; rfl
  | cons p pre2 ih =>
    intro rest sum acc hass
    rcases p with ⟨y, c⟩
    have hy : getAssigned f s y = .ok (some (ν y)) := hass (y, c) (by simp)
    rw [List.cons_append]
    show eqScan f s ((y, c) :: (pre2 ++ rest)) sum acc = _
    simp only [eqScan, hy, PRes.bind_ok]
    rw [evalWith_cons]
    exact ih rest (sum + c * ((ν y : Int) : Rat)) acc
      (fun q hq => hass q (by simp [hq]))

/-- C4, part "all assigned": the scan succeeds iff the sum is exactly zero. -/
theorem eqScan_all_assigned (f : Nat) (s : SearchState) (ν : VarToken → Val)
    (k : Rat) (coef : List (VarToken × Rat))
    (hass : ∀ p ∈ coef, getAssigned f s p.1 = .ok (some (ν p.1))) :
    eqScan f s coef k Option.none =
      (if evalWith ν k coef = 0 then .ok s else .contra) := by
  have h := eqScan_assigned_front f s ν coef [] k Option.none hass
  rw [List.append_nil] at h
  rw [h]
  rfl

/-- C4, part "exactly one unassigned": the scan solves for the single
unassigned variable with exact rationals and rejects non-integral values. -/
theorem eqScan_one_unassigned (f : Nat) (s : SearchState) (ν : VarToken → Val)
    (k : Rat) (pre post : List (VarToken × Rat)) (x : VarToken) (c : Rat)
    (hass : ∀ p ∈ pre ++ post, getAssigned f s p.1 = .ok (some (ν p.1)))
    (hx : getAssigned f s x = .ok Option.none) :
    eqScan f s (pre ++ (x, c) :: post) k Option.none =
      (if (-(evalWith ν k (pre ++ post)) / c).den = 1
       then setCandidate f s x (-(evalWith ν k (pre ++ post)) / c).num
       else .contra) := by
  rw [eqScan_assigned_front f s ν pre ((x, c) :: post) k Option.none
    (fun p hp => hass p (List.mem_append_left _ hp))]
  show eqScan f s ((x, c) :: post) (evalWith ν k pre) Option.none = _
  simp only [eqScan, hx, PRes.bind_ok]
  have h2 := eqScan_assigned_front f s ν post [] (evalWith ν k pre) (some (x, c))
    (fun p hp => hass p (List.mem_append_right _ hp))
  rw [List.append_nil] at h2
  rw [h2, evalWith_append]
  rfl

/-- C4, part "two or more unassigned": the scan defers (returns ok without
touching the state) as soon as it meets the second unassigned variable. -/
theorem eqScan_two_unassigned (f : Nat) (s : SearchState) (ν : VarToken → Val)
    (k : Rat) (pre mid post : List (VarToken × Rat)) (x y : VarToken)
    (cx cy : Rat)
    (hass : ∀ p ∈ pre ++ mid, getAssigned f s p.1 = .ok (some (ν p.1)))
    (hx : getAssigned f s x = .ok Option.none)
    (hy : getAssigned f s y = .ok Option.none) :
    eqScan f s (pre ++ (x, cx) :: (mid ++ (y, cy) :: post)) k Option.none = .ok s := by
  rw [eqScan_assigned_front f s ν pre ((x, cx) :: (mid ++ (y, cy) :: post)) k
    Option.none (fun p hp => hass p (List.mem_append_left _ hp))]
  show eqScan f s ((x, cx) :: (mid ++ (y, cy) :: post)) (evalWith ν k pre)
      Option.none = _
  simp only [eqScan, hx, PRes.bind_ok]
  rw [eqScan_assigned_front f s ν mid ((y, cy) :: post) (evalWith ν k pre)
    (some (x, cx)) (fun p hp => hass p (List.mem_append_right _ hp))]
  show eqScan f s ((y, cy) :: post) _ (some (x, cx)) = _
  simp only [eqScan, hy, PRes.bind_ok]

/-- `set_candidate` on an `Unassigned` set-cell: succeed and shrink to the
singleton exactly when the value is in the current domain. -/
theorem setCandidate_at_set (f : Nat) (s : SearchState) (x : VarToken)
    (val : Val) (l : List Val) (hf : 0 < f)
    (hx : s.vars[x]? = some (.unassigned (.set l))) :
    setCandidate f s x val =
      (if l.contains val then
        .ok { s with vars := s.vars.set x (.unassigned (.set [val])),
                     wake := wakeUnion s.wake (watchers s.constraints x) }
       else .contra) := by
  cases f with
  | zero => exact absurd hf (lt_irrefl 0)
  | succ g =>
    have hres : resolveVar (Nat.succ g) s x = .ok x :=
      resolveVar_not_unified _ _ _ _ hx (by intro t h'; cases h') (Nat.succ_pos g)
    unfold setCandidate
    rw [hres]
    simp only [PRes.bind_ok]
    rw [hx]

/-- C4: `Equality::on_assigned`.  (i) With every variable of the expression
assigned, it returns ok iff the sum is exactly zero.  (ii) With exactly one
unassigned variable, it computes the forced value `−partial/c` in exact
rational arithmetic, rejects it as a contradiction when it is not an
integer, and otherwise hands it to `set_candidate`.  (iii) `set_candidate`
on an unassigned set-domain succeeds iff the forced value is in the current
domain, shrinking the domain to that single value.  (iv) With two or more
unassigned variables it defers, returning ok without mutating the state.
(v) Spec scenario 4: `v0 ∈ {3}`, `v1 ∈ {0,1}`, `v0 + 2·v1 = 4` makes `step`
return a contradiction, because the forced value 1/2 is not integral. -/
theorem c4_equality_on_assigned :
    (∀ (f : Nat) (s : SearchState) (var : VarToken) (val : Val)
       (ν : VarToken → Val) (k : Rat) (coef : List (VarToken × Rat)),
       (∀ p ∈ coef, getAssigned f s p.1 = .ok (some (ν p.1))) →
       (Constraint.equality k coef).onAssigned f s var val =
         (if evalWith ν k coef = 0 then .ok s else .contra)) ∧
    (∀ (f : Nat) (s : SearchState) (var : VarToken) (val : Val)
       (ν : VarToken → Val) (k : Rat) (pre post : List (VarToken × Rat))
       (x : VarToken) (c : Rat),
       (∀ p ∈ pre ++ post, getAssigned f s p.1 = .ok (some (ν p.1))) →
       getAssigned f s x = .ok Option.none →
       (Constraint.equality k (pre ++ (x, c) :: post)).onAssigned f s var val =
         (if (-(evalWith ν k (pre ++ post)) / c).den = 1
          then setCandidate f s x (-(evalWith ν k (pre ++ post)) / c).num
          else .contra)) ∧
    (∀ (f : Nat) (s : SearchState) (x : VarToken) (val : Val) (l : List Val),
       0 < f → s.vars[x]? = some (.unassigned (.set l)) →
       setCandidate f s x val =
         (if l.contains val then
           .ok { s with vars := s.vars.set x (.unassigned (.set [val])),
                        wake := wakeUnion s.wake (watchers s.constraints x) }
          else .contra)) ∧
    (∀ (f : Nat) (s : SearchState) (var : VarToken) (val : Val)
       (ν : VarToken → Val) (k : Rat) (pre mid post : List (VarToken × Rat))
       (x y : VarToken) (cx cy : Rat),
       (∀ p ∈ pre ++ mid, getAssigned f s p.1 = .ok (some (ν p.1))) →
       getAssigned f s x = .ok Option.none →
       getAssigned f s y = .ok Option.none →
       (Constraint.equality k
         (pre ++ (x, cx) :: (mid ++ (y, cy) :: post))).onAssigned f s var val =
         .ok s) ∧
    stepM 30 pzEqContra = .ok Option.none := by
  refine ⟨?_, ?_, ?_, ?_, by decide⟩
  · intro f s var val ν k coef hass
    exact eqScan_all_assigned f s ν k coef hass
  · intro f s var val ν k pre post x c hass hx
    exact eqScan_one_unassigned f s ν k pre post x c hass hx
  · intro f s x val l hf hx
    exact setCandidate_at_set f s x val l hf hx
  · intro f s var val ν k pre mid post x y cx cy hass hx hy
    exact eqScan_two_unassigned f s ν k pre mid post x y cx cy hass hx hy

/-- C4 witness: the state `step` reaches on `pzEqContra` after the gimme
`v0 := 3` fires the equality; the forced value for `v1` is `1/2`. -/
theorem c4_witness :
    (Constraint.equality (-4) [(0, 1), (1, 2)]).onAssigned 10
      (SearchState.mk [.equality (-4) [(0, 1), (1, 2)]]
        [.assigned 3, .unassigned (.set [0, 1])] [0]) 0 3 = .contra := by
  have h := c4_equality_on_assigned.2.1 10
    (SearchState.mk [.equality (-4) [(0, 1), (1, 2)]]
      [.assigned 3, .unassigned (.set [0, 1])] [0]) 0 3 (fun _ => 3) (-4)
    [(0, 1)] [] 1 2 (by decide) (by decide)
  simp only [List.singleton_append] at h
  rw [h]
  decide

/-! ## Claim C3: `AllDifferent::on_updated`

Semantic view of the pigeonhole check: `unassignedWatched` is the list of
still-unassigned watched variables, `domainUnion` the (sorted, deduplicated)
union `U` of their candidates, and `bearers val` the unassigned watched
variables whose domain contains `val`. -/

/-- A state with no `Unified` cells (the common case the claim describes). -/
def plainVars (s : SearchState) : Prop :=
  ∀ (idx t : Nat), s.vars[idx]? ≠ some (VarState.unified t)

/-- The cell of `v` is `Unassigned`. -/
def isUnassignedAt (s : SearchState) (v : VarToken) : Bool :=
  match s.vars[v]? with
  | some (.unassigned _) => true
  | _ => false

/-- The candidate list of an `Unassigned` cell (empty otherwise). -/
def candsAt (s : SearchState) (v : VarToken) : List Val :=
  match s.vars[v]? with
  | some (.unassigned cs) => cs.toList
  | _ => []

/-- The still-unassigned watched variables (in watch order). -/
def unassignedWatched (s : SearchState) (vs : List VarToken) : List VarToken :=
  vs.filter (fun v => isUnassignedAt s v)

/-- The union `U` of the candidates across the unassigned watched
variables, as a sorted duplicate-free list, starting from `u0`. -/
def domainUnionFrom (s : SearchState) (vs : List VarToken) (u0 : List Val) :
    List Val :=
  (unassignedWatched s vs).foldl
    (fun u v => (candsAt s v).foldl (fun u x => insSorted x u) u) u0

/-- The union `U` of the claim. -/
def domainUnion (s : SearchState) (vs : List VarToken) : List Val :=
  domainUnionFrom s vs []

/-- The unassigned watched variables whose domain contains `val` (the
"candidate-bearers" of the claim). -/
def bearers (s : SearchState) (vs : List VarToken) (val : Val) : List VarToken :=
  (unassignedWatched s vs).filter (fun v => (candsAt s v).contains val)

/-- Look a value up in the `all_candidates` table. -/
def tblLookup (tbl : List (Val × Option VarToken)) (val : Val) :
    Option (Option VarToken) :=
  (tbl.find? (fun p => p.1 == val)).map Prod.snd

/-- The table keys are strictly sorted. -/
def sortedKeys (tbl : List (Val × Option VarToken)) : Prop :=
  (tbl.map Prod.fst).Pairwise (· < ·)

/-- The table entry a bearer list denotes: absent for no bearer, the unique
bearer, or `none` (the downgraded marker) for two or more. -/
def bearersView (l : List VarToken) : Option (Option VarToken) :=
  match l with
  | [] => Option.none
  | [x] => some (some x)
  | _ => some Option.none

theorem mem_insSorted {α : Type} [LinearOrder α] (v y : α) :
    ∀ (l : List α), y ∈ insSorted v l ↔ y = v ∨ y ∈ l := by
  intro l
  induction l with
  | nil => simp [insSorted]
  | cons x xs ih =>
    unfold insSorted
    by_cases h1 : v < x
    · simp [h1]
    · by_cases h2 : v = x
      · rw [if_neg h1, if_pos h2]
        subst h2
        constructor
        · intro h; exact Or.inr h
        · intro h
          rcases h with h | h
          · rw [h]; exact List.mem_cons_self _ _
          · exact h
      · rw [if_neg h1, if_neg h2]
        simp only [List.mem_cons, ih]
        tauto

theorem insSorted_pairwise {α : Type} [LinearOrder α] (v : α) :
    ∀ (l : List α), l.Pairwise (· < ·) → (insSorted v l).Pairwise (· < ·) := by
  intro l
  induction l with
  | nil => intro _; simp [insSorted]
  | cons x xs ih =>
    intro hp
    rcases List.pairwise_cons.mp hp with ⟨hx, hxs⟩
    unfold insSorted
    by_cases h1 : v < x
    · rw [if_pos h1]
      refine List.pairwise_cons.mpr ⟨?_, hp⟩
      intro y hy
      rcases List.mem_cons.mp hy with h | h
      · rw [h]; exact h1
      · exact lt_trans h1 (hx y h)
    · by_cases h2 : v = x
      · rw [if_neg h1, if_pos h2]; exact hp
      · rw [if_neg h1, if_neg h2]
        refine List.pairwise_cons.mpr ⟨?_, ih hxs⟩
        intro y hy
        rcases (mem_insSorted v y xs).mp hy with h | h
        · rw [h]
          rcases lt_trichotomy v x with h3 | h3 | h3
          · exact absurd h3 h1
          · exact absurd h3 h2
          · exact h3
        · exact hx y h

theorem tblInsert_keys (val : Val) (var : VarToken) :
    ∀ (tbl : List (Val × Option VarToken)),
      (tblInsert tbl val var).map Prod.fst = insSorted val (tbl.map Prod.fst) := by
  intro tbl
  induction tbl with
  | nil => rfl
  | cons p rest ih =>
    rcases p with ⟨v, o⟩
    unfold tblInsert insSorted
    by_cases h1 : val < v
    · simp [h1]
    · by_cases h2 : val = v
      · simp [h1, h2]
      · simp only [h1, h2, if_false]
        simp only [List.map_cons, ih]
        rw [if_neg h1, if_neg h2]

theorem tblInsert_sorted (val : Val) (var : VarToken)
    (tbl : List (Val × Option VarToken)) (h : sortedKeys tbl) :
    sortedKeys (tblInsert tbl val var) := by
  unfold sortedKeys
  rw [tblInsert_keys]
  exact insSorted_pairwise val _ h

theorem tblLookup_none_of_forall (val : Val) :
    ∀ (tbl : List (Val × Option VarToken)),
      (∀ p ∈ tbl, p.1 ≠ val) → tblLookup tbl val = Option.none := by
  intro tbl h
  unfold tblLookup
  rw [List.find?_eq_none.mpr]
  · rfl
  · intro p hp
    simp [h p hp]

/-- The effect of one `all_candidates.insert` on lookups. -/
theorem tblLookup_insert (val : Val) (var : VarToken) :
    ∀ (tbl : List (Val × Option VarToken)), sortedKeys tbl →
      (tblLookup (tblInsert tbl val var) val =
        some (if (tblLookup tbl val).isSome then Option.none else some var)) ∧
      ∀ val', val' ≠ val →
        tblLookup (tblInsert tbl val var) val' = tblLookup tbl val' := by
  intro tbl
  induction tbl with
  | nil =>
    intro _
    constructor
    · simp [tblInsert, tblLookup]
    · intro val' hne
      have hbe : (val == val') = false := by
        simp only [beq_eq_false_iff_ne, ne_eq]
        exact Ne.symm hne
      simp [tblInsert, tblLookup, List.find?, hbe]
  | cons p rest ih =>
    intro hs
    rcases p with ⟨v, o⟩
    have hs' : sortedKeys rest := by
      unfold sortedKeys at hs ⊢
      exact (List.pairwise_cons.mp hs).2
    have hvlt : ∀ q ∈ rest, v < q.1 := by
      intro q hq
      exact (List.pairwise_cons.mp hs).1 q.1 (List.mem_map_of_mem Prod.fst hq)
    unfold tblInsert
    by_cases h1 : val < v
    · rw [if_pos h1]
      constructor
      · have hnone : tblLookup ((v, o) :: rest) val = Option.none := by
          refine tblLookup_none_of_forall val _ ?_
          intro q hq
          rcases List.mem_cons.mp hq with h | h
          · rw [h]; exact ne_of_gt h1
          · exact ne_of_gt (lt_trans h1 (hvlt q h))
        rw [hnone]
        simp [tblLookup, List.find?]
      · intro val' hne
        unfold tblLookup
        rw [List.find?_cons_of_neg _ (by simp only [beq_iff_eq]; exact Ne.symm hne)]
    · by_cases h2 : val = v
      · rw [if_neg h1, if_pos h2]
        subst h2
        constructor
        · unfold tblLookup
          rw [List.find?_cons_of_pos _ (by simp), List.find?_cons_of_pos _ (by simp)]
          simp
        · intro val' hne
          unfold tblLookup
          rw [List.find?_cons_of_neg _ (by simp [Ne.symm hne]),
            List.find?_cons_of_neg _ (by simp [Ne.symm hne])]
      · rw [if_neg h1, if_neg h2]
        rcases ih hs' with ⟨ih1, ih2⟩
        constructor
        · unfold tblLookup
          rw [List.find?_cons_of_neg _ (by
              simp only [beq_iff_eq]
              exact fun hh => h2 hh.symm),
            List.find?_cons_of_neg _ (by
              simp only [beq_iff_eq]
              exact fun hh => h2 hh.symm)]
          exact ih1
        · intro val' hne
          by_cases h3 : val' = v
          · unfold tblLookup
            subst h3
            rw [List.find?_cons_of_pos _ (by simp), List.find?_cons_of_pos _ (by simp)]
          · unfold tblLookup
            rw [List.find?_cons_of_neg _ (by
                simp only [beq_iff_eq]
                exact fun hh => h3 hh.symm),
              List.find?_cons_of_neg _ (by
                simp only [beq_iff_eq]
                exact fun hh => h3 hh.symm)]
            exact ih2 val' hne

/-- Folding one variable's (duplicate-free) candidate list into the table:
values in the list gain `v` as a bearer, everything else is untouched. -/
theorem tblLookup_foldl_var (v : VarToken) :
    ∀ (L : List Val) (tbl : List (Val × Option VarToken)),
      sortedKeys tbl → L.Nodup →
      sortedKeys (L.foldl (fun t val => tblInsert t val v) tbl) ∧
      ∀ val, tblLookup (L.foldl (fun t val => tblInsert t val v) tbl) val =
        (if val ∈ L then
          some (if (tblLookup tbl val).isSome then Option.none else some v)
         else tblLookup tbl val) := by
  intro L
  induction L with
  | nil =>
    intro tbl hs _
    exact ⟨hs, by simp⟩
  | cons w L' ih =>
    intro tbl hs hnd
    rcases List.nodup_cons.mp hnd with ⟨hw, hnd'⟩
    have hs1 : sortedKeys (tblInsert tbl w v) := tblInsert_sorted w v tbl hs
    rcases ih (tblInsert tbl w v) hs1 hnd' with ⟨ihs, ihl⟩
    rw [List.foldl_cons]
    refine ⟨ihs, ?_⟩
    intro val
    rw [ihl val]
    rcases tblLookup_insert w v tbl hs with ⟨hi1, hi2⟩
    by_cases hval : val ∈ w :: L'
    · rw [if_pos hval]
      by_cases hvw : val = w
      · subst hvw
        rw [if_neg hw, hi1]
      · have hmem' : val ∈ L' := by
          rcases List.mem_cons.mp hval with h | h
          · exact absurd h hvw
          · exact h
        rw [if_pos hmem', hi2 val hvw]
    · have h1 : val ≠ w := fun h => hval (by rw [h]; exact List.mem_cons_self _ _)
      have h2 : val ∉ L' := fun h => hval (List.mem_cons_of_mem _ h)
      rw [if_neg h2, hi2 val h1, if_neg hval]

theorem bearers_append (s : SearchState) (vs1 vs2 : List VarToken) (val : Val) :
    bearers s (vs1 ++ vs2) val = bearers s vs1 val ++ bearers s vs2 val := by
  unfold bearers unassignedWatched
  rw [List.filter_append, List.filter_append]

/-- The pure model of `adBuild` (which only reads the state). -/
def adBuildPure (s : SearchState) (vs : List VarToken)
    (acc : Nat × List (Val × Option VarToken)) :
    Nat × List (Val × Option VarToken) :=
  vs.foldl (fun kt v =>
    if isUnassignedAt s v then
      (kt.1 + 1, (candsAt s v).foldl (fun t val => tblInsert t val v) kt.2)
    else kt) acc

theorem getAssigned_at_assigned (f : Nat) (s : SearchState) (v : VarToken)
    (w : Val) (hf : 0 < f) (hv : s.vars[v]? = some (.assigned w)) :
    getAssigned f s v = .ok (some w) := by
  cases f with
  | zero => exact absurd hf (lt_irrefl 0)
  | succ g =>
    have hres : resolveVar (Nat.succ g) s v = .ok v :=
      resolveVar_not_unified _ _ _ _ hv (by intro t h'; cases h') (Nat.succ_pos g)
    unfold getAssigned
    rw [hres]
    simp only [PRes.bind_ok]
    rw [hv]

theorem getAssigned_at_unassigned (f : Nat) (s : SearchState) (v : VarToken)
    (cs : Candidates) (hf : 0 < f)
    (hv : s.vars[v]? = some (.unassigned cs)) :
    getAssigned f s v = .ok Option.none := by
  cases f with
  | zero => exact absurd hf (lt_irrefl 0)
  | succ g =>
    have hres : resolveVar (Nat.succ g) s v = .ok v :=
      resolveVar_not_unified _ _ _ _ hv (by intro t h'; cases h') (Nat.succ_pos g)
    unfold getAssigned
    rw [hres]
    simp only [PRes.bind_ok]
    rw [hv]

theorem getUnassigned_at_unassigned (f : Nat) (s : SearchState) (v : VarToken)
    (cs : Candidates) (hf : 0 < f)
    (hv : s.vars[v]? = some (.unassigned cs)) :
    getUnassigned f s v = .ok cs.toList := by
  cases f with
  | zero => exact absurd hf (lt_irrefl 0)
  | succ g =>
    have hres : resolveVar (Nat.succ g) s v = .ok v :=
      resolveVar_not_unified _ _ _ _ hv (by intro t h'; cases h') (Nat.succ_pos g)
    unfold getUnassigned
    rw [hres]
    simp only [PRes.bind_ok]
    rw [hv]

theorem cell_cases_plain (s : SearchState) (hplain : plainVars s) (v : VarToken)
    (hv : v < s.vars.length) :
    (∃ w, s.vars[v]? = some (.assigned w)) ∨
    ∃ cs, s.vars[v]? = some (.unassigned cs) := by
  cases hcell : s.vars[v]? with
  | none =>
    rw [List.getElem?_eq_getElem hv] at hcell
    cases hcell
  | some vst =>
    cases vst with
    | assigned w => exact Or.inl ⟨w, rfl⟩
    | unassigned cs => exact Or.inr ⟨cs, rfl⟩
    | unified t => exact absurd hcell (hplain v t)

/-- `adBuild` agrees with its pure model on plain in-range states. -/
theorem adBuild_eq_pure (f : Nat) (s : SearchState) (hf : 0 < f)
    (hplain : plainVars s) :
    ∀ (vs : List VarToken) (acc : Nat × List (Val × Option VarToken)),
      (∀ v ∈ vs, v < s.vars.length) →
      adBuild f s vs acc = .ok (adBuildPure s vs acc) := by
  intro vs
  induction vs with
  | nil => intro acc _; rfl
  | cons v rest ih =>
    intro acc hrange
    rcases acc with ⟨k, tbl⟩
    have hrest : ∀ x ∈ rest, x < s.vars.length :=
      fun x hx => hrange x (List.mem_cons_of_mem _ hx)
    rcases cell_cases_plain s hplain v (hrange v (List.mem_cons_self _ _)) with
      ⟨w, hv⟩ | ⟨cs, hv⟩
    · have hun : isUnassignedAt s v = false := by
        unfold isUnassignedAt
        rw [hv]
      simp only [adBuild]
      rw [getAssigned_at_assigned f s v w hf hv]
      simp only [PRes.bind_ok]
      rw [ih (k, tbl) hrest]
      unfold adBuildPure
      simp only [List.foldl_cons, hun, Bool.false_eq_true, if_false]
    · have hun : isUnassignedAt s v = true := by
        unfold isUnassignedAt
        rw [hv]
      have hcands : candsAt s v = cs.toList := by
        unfold candsAt
        rw [hv]
      simp only [adBuild]
      rw [getAssigned_at_unassigned f s v cs hf hv]
      simp only [PRes.bind_ok]
      rw [getUnassigned_at_unassigned f s v cs hf hv]
      simp only [PRes.bind_ok]
      rw [ih _ hrest]
      unfold adBuildPure
      simp only [List.foldl_cons, hun, if_true]
      rw [hcands]

theorem bearers_single_unassigned (s : SearchState) (v : VarToken) (val : Val)
    (hun : isUnassignedAt s v = true) :
    bearers s [v] val = if (candsAt s v).contains val then [v] else [] := by
  unfold bearers unassignedWatched
  rw [List.filter_cons, if_pos (by rw [hun])]
  rw [List.filter_nil, List.filter_cons, List.filter_nil]

theorem bearers_single_assigned (s : SearchState) (v : VarToken) (val : Val)
    (hun : isUnassignedAt s v = false) :
    bearers s [v] val = [] := by
  unfold bearers unassignedWatched
  rw [List.filter_cons, if_neg (by rw [hun]; exact Bool.false_ne_true)]
  rw [List.filter_nil, List.filter_nil]

/-- The built table looks up each value to exactly the `bearersView` of its
bearer list: absent, unique bearer `x`, or the `None` marker. -/
theorem adBuildPure_spec (s : SearchState)
    (hnd : ∀ v, (candsAt s v).Nodup) :
    ∀ (vs pre : List VarToken) (k : Nat) (tbl : List (Val × Option VarToken)),
      sortedKeys tbl →
      (∀ val, tblLookup tbl val = bearersView (bearers s pre val)) →
      sortedKeys (adBuildPure s vs (k, tbl)).2 ∧
      ∀ val, tblLookup (adBuildPure s vs (k, tbl)).2 val =
        bearersView (bearers s (pre ++ vs) val) := by
  intro vs
  induction vs with
  | nil =>
    intro pre k tbl hs hv
    refine ⟨hs, ?_⟩
    intro val
    rw [List.append_nil]
    exact hv val
  | cons v rest ih =>
    intro pre k tbl hs hv
    have happ : pre ++ v :: rest = (pre ++ [v]) ++ rest := by simp
    by_cases hun : isUnassignedAt s v
    · rcases tblLookup_foldl_var v (candsAt s v) tbl hs (hnd v) with ⟨hs1, hl1⟩
      have step : adBuildPure s (v :: rest) (k, tbl) =
          adBuildPure s rest
            (k + 1, (candsAt s v).foldl (fun t val => tblInsert t val v) tbl) := by
        unfold adBuildPure
        simp only [List.foldl_cons, hun, if_true]
      have hv' : ∀ val,
          tblLookup ((candsAt s v).foldl (fun t val => tblInsert t val v) tbl) val
            = bearersView (bearers s (pre ++ [v]) val) := by
        intro val
        rw [hl1 val, bearers_append, bearers_single_unassigned s v val hun]
        by_cases hmem : val ∈ candsAt s v
        · rw [if_pos
            (show (candsAt s v).contains val = true from List.elem_iff.mpr hmem)]
          rw [if_pos hmem, hv val]
          cases hb : bearers s pre val with
          | nil => rfl
          | cons x B' =>
            cases B' with
            | nil => rfl
            | cons y B'' => rfl
        · rw [if_neg hmem,
            if_neg (by intro hc; exact hmem (List.elem_iff.mp hc)),
            List.append_nil]
          exact hv val
      rw [step, happ]
      exact ih (pre ++ [v]) (k + 1) _ hs1 hv'
    · have hunf : isUnassignedAt s v = false := by
        cases h : isUnassignedAt s v
        · rfl
        · exact absurd h hun
      have step : adBuildPure s (v :: rest) (k, tbl) =
          adBuildPure s rest (k, tbl) := by
        unfold adBuildPure
        simp only [List.foldl_cons, hunf, Bool.false_eq_true, if_false]
      have hv' : ∀ val, tblLookup tbl val =
          bearersView (bearers s (pre ++ [v]) val) := by
        intro val
        rw [bearers_append, bearers_single_assigned s v val hunf, List.append_nil]
        exact hv val
      rw [step, happ]
      exact ih (pre ++ [v]) k tbl hs hv'

/-- `num_unassigned` counts the still-unassigned watched variables. -/
theorem adBuildPure_count (s : SearchState) :
    ∀ (vs : List VarToken) (k : Nat) (tbl : List (Val × Option VarToken)),
      (adBuildPure s vs (k, tbl)).1 = k + (unassignedWatched s vs).length := by
  intro vs
  induction vs with
  | nil =>
    intro k tbl
    simp [adBuildPure, unassignedWatched]
  | cons v rest ih =>
    intro k tbl
    unfold adBuildPure unassignedWatched
    rw [List.foldl_cons, List.filter_cons]
    by_cases hun : isUnassignedAt s v
    · rw [if_pos hun, if_pos (by rw [hun])]
      show (adBuildPure s rest (k + 1, _)).1 = _
      rw [ih (k + 1) _]
      unfold unassignedWatched
      simp [Nat.add_comm, Nat.add_assoc, Nat.add_left_comm]
    · have hunf : isUnassignedAt s v = false := by
        cases h : isUnassignedAt s v
        · rfl
        · exact absurd h hun
      rw [if_neg (by rw [hunf]; exact Bool.false_ne_true),
        if_neg (by rw [hunf]; exact Bool.false_ne_true)]
      exact ih k tbl

theorem foldl_tblInsert_keys (v : VarToken) :
    ∀ (L : List Val) (tbl : List (Val × Option VarToken)),
      (L.foldl (fun t val => tblInsert t val v) tbl).map Prod.fst =
        L.foldl (fun u x => insSorted x u) (tbl.map Prod.fst) := by
  intro L
  induction L with
  | nil => intro tbl; rfl
  | cons w L' ih =>
    intro tbl
    rw [List.foldl_cons, List.foldl_cons, ih, tblInsert_keys]

/-- The table keys are exactly the union `U`. -/
theorem adBuildPure_keys (s : SearchState) :
    ∀ (vs : List VarToken) (k : Nat) (tbl : List (Val × Option VarToken)),
      ((adBuildPure s vs (k, tbl)).2).map Prod.fst =
        domainUnionFrom s vs (tbl.map Prod.fst) := by
  intro vs
  induction vs with
  | nil => intro k tbl; rfl
  | cons v rest ih =>
    intro k tbl
    unfold adBuildPure domainUnionFrom unassignedWatched
    rw [List.foldl_cons, List.filter_cons]
    by_cases hun : isUnassignedAt s v
    · rw [if_pos hun, if_pos (by rw [hun]), List.foldl_cons]
      show ((adBuildPure s rest (k + 1, _)).2).map Prod.fst = _
      rw [ih (k + 1) _, foldl_tblInsert_keys]
      rfl
    · have hunf : isUnassignedAt s v = false := by
        cases h : isUnassignedAt s v
        · rfl
        · exact absurd h hun
      rw [if_neg (by rw [hunf]; exact Bool.false_ne_true),
        if_neg (by rw [hunf]; exact Bool.false_ne_true)]
      exact ih k tbl

/-- `set_candidate` on an unassigned cell whose domain holds `val` succeeds,
leaves every other variable untouched, and leaves the target's domain
iterating exactly `[val]`. -/
theorem setCandidate_mem_toList (f : Nat) (s : SearchState) (x : VarToken)
    (val : Val) (cs : Candidates) (hf : 0 < f)
    (hx : s.vars[x]? = some (.unassigned cs)) (hval : val ∈ cs.toList) :
    ∃ s', setCandidate f s x val = .ok s' ∧
      (∃ cs', s'.vars[x]? = some (.unassigned cs') ∧ cs'.toList = [val]) ∧
      ∀ y, y ≠ x → s'.vars[y]? = s.vars[y]? := by
  cases cs with
  | none => simp [Candidates.toList] at hval
  | value w =>
    have hw : w = val := by
      simp only [Candidates.toList, List.mem_singleton] at hval
      exact hval.symm
    refine ⟨s, ?_, ⟨.value w, hx, by simp [Candidates.toList, hw]⟩, fun y _ => rfl⟩
    cases f with
    | zero => exact absurd hf (lt_irrefl 0)
    | succ g =>
      have hres : resolveVar (Nat.succ g) s x = .ok x :=
        resolveVar_not_unified _ _ _ _ hx (by intro t h'; cases h') (Nat.succ_pos g)
      unfold setCandidate
      rw [hres]
      simp only [PRes.bind_ok]
      rw [hx]
      show (if w = val then PRes.ok s else PRes.contra) = PRes.ok s
      rw [if_pos hw]
  | set l =>
    have hmem : l.contains val = true := by
      simp only [Candidates.toList] at hval
      exact List.elem_iff.mpr hval
    have hxlen : x < s.vars.length := lt_length_of_getElem? _ _ _ hx
    refine ⟨_, by rw [setCandidate_at_set f s x val l hf hx, if_pos hmem], ?_, ?_⟩
    · exact ⟨.set [val], List.getElem?_set_self hxlen, rfl⟩
    · intro y hy
      exact List.getElem?_set_ne (fun h => hy h.symm)

/-- A table entry is found by lookup (keys are strictly sorted, hence
unique). -/
theorem tblLookup_of_mem (val : Val) (o : Option VarToken) :
    ∀ (tbl : List (Val × Option VarToken)), sortedKeys tbl →
      (val, o) ∈ tbl → tblLookup tbl val = some o := by
  intro tbl
  induction tbl with
  | nil => intro _ h; cases h
  | cons p rest ih =>
    intro hs hm
    rcases p with ⟨v, o'⟩
    have hs' : sortedKeys rest := by
      unfold sortedKeys at hs ⊢
      exact (List.pairwise_cons.mp hs).2
    rcases List.mem_cons.mp hm with h | h
    · injection h with h1 h2
      subst h1
      subst h2
      unfold tblLookup
      rw [List.find?_cons_of_pos _ (by simp)]
      rfl
    · have hvlt : v < val := (List.pairwise_cons.mp hs).1 (val, o).1
        (List.mem_map_of_mem Prod.fst h)
      unfold tblLookup
      rw [List.find?_cons_of_neg _ (by
        simp only [beq_iff_eq]
        exact fun hh => (ne_of_lt hvlt) hh)]
      exact ih hs' h

/-- Lookup hits are members. -/
theorem mem_of_tblLookup (tbl : List (Val × Option VarToken)) (val : Val)
    (o : Option VarToken) (h : tblLookup tbl val = some o) : (val, o) ∈ tbl := by
  unfold tblLookup at h
  cases hfind : tbl.find? (fun p => p.1 == val) with
  | none => rw [hfind] at h; cases h
  | some q =>
    rw [hfind] at h
    have hq := List.find?_some hfind
    have hmem := List.mem_of_find?_eq_some hfind
    injection h with h2
    rcases q with ⟨v1, o1⟩
    simp only [beq_iff_eq] at hq
    subst hq
    subst h2
    exact hmem

/-- The assignment sweep of `AllDifferent::on_updated`: when every
`Some`-entry names an unassigned variable whose domain contains the value,
and no variable carries two different values, the sweep succeeds, pins each
named variable's domain to its value, and leaves every other variable
untouched. -/
theorem adAssignForced_spec (f : Nat) (hf : 0 < f) :
    ∀ (tbl : List (Val × Option VarToken)) (s : SearchState),
      (∀ val x, (val, some x) ∈ tbl →
        ∃ cs, s.vars[x]? = some (.unassigned cs) ∧ val ∈ cs.toList) →
      (∀ val1 val2 x, (val1, some x) ∈ tbl → (val2, some x) ∈ tbl →
        val1 = val2) →
      ∃ s', adAssignForced f s tbl = .ok s' ∧
        (∀ val x, (val, some x) ∈ tbl →
          ∃ cs', s'.vars[x]? = some (.unassigned cs') ∧ cs'.toList = [val]) ∧
        ∀ y, (∀ val, (val, some y) ∉ tbl) → s'.vars[y]? = s.vars[y]? := by
  intro tbl
  induction tbl with
  | nil =>
    intro s _ _
    exact ⟨s, rfl, by simp, fun y _ => rfl⟩
  | cons p rest ih =>
    intro s hcond hdist
    rcases p with ⟨val, o⟩
    cases o with
    | none =>
      rcases ih s (fun v x hm => hcond v x (List.mem_cons_of_mem _ hm))
        (fun v1 v2 x h1 h2 => hdist v1 v2 x (List.mem_cons_of_mem _ h1)
          (List.mem_cons_of_mem _ h2)) with ⟨s', h1, h2, h3⟩
      refine ⟨s', h1, ?_, ?_⟩
      · intro v x hm
        rcases List.mem_cons.mp hm with h | h
        · injection h with h4 h5
          cases h5
        · exact h2 v x h
      · intro y hy
        exact h3 y (fun v hv => hy v (List.mem_cons_of_mem _ hv))
    | some x =>
      rcases hcond val x (List.mem_cons_self _ _) with ⟨cs, hx, hval⟩
      rcases setCandidate_mem_toList f s x val cs hf hx hval with
        ⟨s1, hset, ⟨cs1, hx1, hlist1⟩, hothers⟩
      have hcond1 : ∀ v z, (v, some z) ∈ rest →
          ∃ cs2, s1.vars[z]? = some (.unassigned cs2) ∧ v ∈ cs2.toList := by
        intro v z hm
        by_cases hz : z = x
        · subst hz
          have hvval : v = val := hdist v val z (List.mem_cons_of_mem _ hm)
            (List.mem_cons_self _ _)
          subst hvval
          exact ⟨cs1, hx1, by rw [hlist1]; exact List.mem_singleton_self _⟩
        · rcases hcond v z (List.mem_cons_of_mem _ hm) with ⟨cs2, hz2, hv2⟩
          exact ⟨cs2, by rw [hothers z hz]; exact hz2, hv2⟩
      rcases ih s1 hcond1
        (fun v1 v2 z h1 h2 => hdist v1 v2 z (List.mem_cons_of_mem _ h1)
          (List.mem_cons_of_mem _ h2)) with ⟨s', h1, h2, h3⟩
      refine ⟨s', ?_, ?_, ?_⟩
      · show adAssignForced f s ((val, some x) :: rest) = .ok s'
        simp only [adAssignForced]
        rw [hset]
        simp only [PRes.bind_ok]
        exact h1
      · intro v z hm
        rcases List.mem_cons.mp hm with h | h
        · injection h with h4 h5
          injection h5 with h5
          subst h4
          subst h5
          by_cases hzrest : ∃ v', (v', some z) ∈ rest
          · rcases hzrest with ⟨v', hv'⟩
            have hv'val : v' = v := hdist v' v z (List.mem_cons_of_mem _ hv')
              (List.mem_cons_self _ _)
            subst hv'val
            exact h2 v' z hv'
          · have hnone : ∀ v', (v', some z) ∉ rest :=
              fun v' hv' => hzrest ⟨v', hv'⟩
            rw [h3 z hnone]
            exact ⟨cs1, hx1, hlist1⟩
        · exact h2 v z h
      · intro y hy
        have hyx : y ≠ x := fun hEq => hy val (by rw [hEq]; exact List.mem_cons_self _ _)
        rw [h3 y (fun v hv => hy v (List.mem_cons_of_mem _ hv)), hothers y hyx]

theorem bearersView_eq_some_some (l : List VarToken) (x : VarToken)
    (h : bearersView l = some (some x)) : l = [x] := by
  cases l with
  | nil => cases h
  | cons a t =>
    cases t with
    | nil =>
      injection h with h1
      injection h1 with h2
      rw [h2]
    | cons b t' =>
      injection h with h1
      cases h1

theorem bearers_unassigned_mem (s : SearchState) (vs : List VarToken)
    (val : Val) (x : VarToken) (h : bearers s vs val = [x]) :
    ∃ cs, s.vars[x]? = some (.unassigned cs) ∧ val ∈ cs.toList := by
  have hx : x ∈ bearers s vs val := by
    rw [h]
    exact List.mem_singleton_self _
  unfold bearers at hx
  rcases List.mem_filter.mp hx with ⟨hx1, hx2⟩
  unfold unassignedWatched at hx1
  rcases List.mem_filter.mp hx1 with ⟨-, hx3⟩
  cases hcell : s.vars[x]? with
  | none =>
    unfold isUnassignedAt at hx3
    rw [hcell] at hx3
    cases hx3
  | some vst =>
    cases vst with
    | assigned w =>
      unfold isUnassignedAt at hx3
      rw [hcell] at hx3
      cases hx3
    | unified t =>
      unfold isUnassignedAt at hx3
      rw [hcell] at hx3
      cases hx3
    | unassigned cs =>
      refine ⟨cs, rfl, ?_⟩
      have : val ∈ candsAt s x := List.elem_iff.mp hx2
      unfold candsAt at this
      rw [hcell] at this
      exact this

/-- C3: `AllDifferent::on_updated`.  (a) Pigeonhole: with more unassigned
watched variables than values in the union `U` of their candidates, it
reports a contradiction.  (b) When the counts are equal and no variable is
the unique bearer of two distinct values, it succeeds and pins each value
whose only candidate-bearer is a single variable `x` onto `x` (the domain of
`x` shrinks to that value).  (c) Spec scenario 3: `v0, v1 ∈ {1,2}`,
`v2 ∈ {1,2,3}` under all-different: after `step`, `v2 = 3`. -/
theorem c3_alldifferent_on_updated :
    (∀ (f : Nat) (s : SearchState) (vs : List VarToken),
       0 < f → plainVars s → (∀ v ∈ vs, v < s.vars.length) →
       (unassignedWatched s vs).length > (domainUnion s vs).length →
       (Constraint.allDifferent vs).onUpdated f s = .contra) ∧
    (∀ (f : Nat) (s : SearchState) (vs : List VarToken),
       0 < f → plainVars s → (∀ v ∈ vs, v < s.vars.length) →
       (∀ v, (candsAt s v).Nodup) →
       (unassignedWatched s vs).length = (domainUnion s vs).length →
       (∀ val1 val2 x, bearers s vs val1 = [x] → bearers s vs val2 = [x] →
         val1 = val2) →
       ∃ s', (Constraint.allDifferent vs).onUpdated f s = .ok s' ∧
         ∀ val x, bearers s vs val = [x] →
           ∃ cs', s'.vars[x]? = some (.unassigned cs') ∧ cs'.toList = [val]) ∧
    (stepM 30 pzAllDiffForce = .ok (some stepAllDiffOut) ∧
     stepAllDiffOut.vars[2]? = some (.assigned 3)) := by
  have hbase : ∀ (s : SearchState) (vs : List VarToken),
      (∀ v, (candsAt s v).Nodup) →
      sortedKeys (adBuildPure s vs (0, [])).2 ∧
      ∀ val, tblLookup (adBuildPure s vs (0, [])).2 val =
        bearersView (bearers s vs val) := by
    intro s vs hnd
    have h := adBuildPure_spec s hnd vs [] 0 [] (by
        unfold sortedKeys
        simp) (by
        intro val
        rfl)
    simpa using h
  refine ⟨?_, ?_, by decide, by decide⟩
  · intro f s vs hf hplain hrange hgt
    have hpure := adBuild_eq_pure f s hf hplain vs (0, []) hrange
    simp only [Constraint.onUpdated, adOnUpdated]
    rw [hpure]
    simp only [PRes.bind_ok]
    rw [if_pos]
    rw [adBuildPure_count s vs 0 []]
    have hkeys := adBuildPure_keys s vs 0 []
    have hlen : (adBuildPure s vs (0, [])).2.length =
        (domainUnion s vs).length := by
      rw [← List.length_map _ Prod.fst, hkeys]
      rfl
    rw [hlen]
    simpa using hgt
  · intro f s vs hf hplain hrange hnd heq hnodouble
    have hpure := adBuild_eq_pure f s hf hplain vs (0, []) hrange
    rcases hbase s vs hnd with ⟨hsorted, hlook⟩
    have hlen : (adBuildPure s vs (0, [])).2.length =
        (domainUnion s vs).length := by
      rw [← List.length_map _ Prod.fst, adBuildPure_keys s vs 0 []]
      rfl
    have hcount : (adBuildPure s vs (0, [])).1 =
        (unassignedWatched s vs).length := by
      rw [adBuildPure_count s vs 0 []]
      exact Nat.zero_add _
    have hk : (adBuildPure s vs (0, [])).1 = (adBuildPure s vs (0, [])).2.length := by
      rw [hcount, hlen]
      exact heq
    have hcond : ∀ val x, (val, some x) ∈ (adBuildPure s vs (0, [])).2 →
        ∃ cs, s.vars[x]? = some (.unassigned cs) ∧ val ∈ cs.toList := by
      intro val x hm
      have hl := tblLookup_of_mem val (some x) _ hsorted hm
      rw [hlook val] at hl
      exact bearers_unassigned_mem s vs val x (bearersView_eq_some_some _ x hl)
    have hdist : ∀ val1 val2 x, (val1, some x) ∈ (adBuildPure s vs (0, [])).2 →
        (val2, some x) ∈ (adBuildPure s vs (0, [])).2 → val1 = val2 := by
      intro val1 val2 x h1 h2
      have hl1 := tblLookup_of_mem val1 (some x) _ hsorted h1
      have hl2 := tblLookup_of_mem val2 (some x) _ hsorted h2
      rw [hlook val1] at hl1
      rw [hlook val2] at hl2
      exact hnodouble val1 val2 x
        (bearersView_eq_some_some _ x hl1)
        (bearersView_eq_some_some _ x hl2)
    rcases adAssignForced_spec f hf (adBuildPure s vs (0, [])).2 s hcond hdist with
      ⟨s', hrun, hcells, -⟩
    refine ⟨s', ?_, ?_⟩
    · simp only [Constraint.onUpdated, adOnUpdated]
      rw [hpure]
      simp only [PRes.bind_ok]
      rw [if_neg (by rw [hk]; exact lt_irrefl _), if_pos hk]
      exact hrun
    · intro val x hb
      have hl : tblLookup (adBuildPure s vs (0, [])).2 val = some (some x) := by
        rw [hlook val, hb]
        rfl
      exact hcells val x (mem_of_tblLookup _ val (some x) hl)

theorem mem_of_getElem?_eq {α : Type} (l : List α) (i : Nat) (a : α)
    (h : l[i]? = some a) : a ∈ l := by
  rcases List.getElem?_eq_some.mp h with ⟨hlt, heq⟩
  rw [← heq]
  exact List.getElem_mem hlt

def cellPlainB : VarState → Bool
  | VarState.unified _ => false
  | _ => true

def cellNodupB : VarState → Bool
  | VarState.unassigned cs => decide cs.toList.Nodup
  | _ => true

theorem plainVars_of_all (s : SearchState) (h : s.vars.all cellPlainB = true) :
    plainVars s := by
  intro idx t hc
  have hmem : VarState.unified t ∈ s.vars := mem_of_getElem?_eq _ _ _ hc
  have hb := List.all_eq_true.mp h _ hmem
  simp [cellPlainB] at hb

theorem candsAt_nodup_of_all (s : SearchState)
    (h : s.vars.all cellNodupB = true) : ∀ v, (candsAt s v).Nodup := by
  intro v
  unfold candsAt
  cases hc : s.vars[v]? with
  | none => simp
  | some c =>
    cases c with
    | assigned w => simp
    | unified t => simp
    | unassigned cs =>
      have hmem : VarState.unassigned cs ∈ s.vars := mem_of_getElem?_eq _ _ _ hc
      have hb := List.all_eq_true.mp h _ hmem
      exact of_decide_eq_true hb

theorem mem_cands_of_bearers_eq (s : SearchState) (vs : List VarToken)
    (val : Val) (x : VarToken) (h : bearers s vs val = [x]) :
    x ∈ vs ∧ val ∈ candsAt s x := by
  have hx : x ∈ bearers s vs val := by
    rw [h]
    exact List.mem_singleton_self _
  unfold bearers at hx
  rcases List.mem_filter.mp hx with ⟨hx1, hx2⟩
  unfold unassignedWatched at hx1
  rcases List.mem_filter.mp hx1 with ⟨hv, -⟩
  exact ⟨hv, List.elem_iff.mp hx2⟩

theorem nodouble_of_check (s : SearchState) (vs : List VarToken)
    (h : ∀ x ∈ vs, ∀ val1 ∈ candsAt s x, ∀ val2 ∈ candsAt s x,
        bearers s vs val1 = [x] → bearers s vs val2 = [x] → val1 = val2) :
    ∀ val1 val2 x, bearers s vs val1 = [x] → bearers s vs val2 = [x] →
      val1 = val2 := by
  intro val1 val2 x h1 h2
  rcases mem_cands_of_bearers_eq s vs val1 x h1 with ⟨hxv, hc1⟩
  rcases mem_cands_of_bearers_eq s vs val2 x h2 with ⟨-, hc2⟩
  exact h x hxv val1 hc1 val2 hc2 h1 h2

/-- Counterexample to the unconditional positive branch of C3: in
`pzDoubleForce`, variable 0 is the unique candidate-bearer of both values 1
and 2 while `k = |U| = 4`, and `on_updated` reports a contradiction instead
of performing the promised forced assignments. -/
theorem c3_counterexample :
    (unassignedWatched (newSearch pzDoubleForce) [0, 1, 2, 3]).length =
      (domainUnion (newSearch pzDoubleForce) [0, 1, 2, 3]).length ∧
    bearers (newSearch pzDoubleForce) [0, 1, 2, 3] 1 = [0] ∧
    bearers (newSearch pzDoubleForce) [0, 1, 2, 3] 2 = [0] ∧
    (Constraint.allDifferent [0, 1, 2, 3]).onUpdated 30
      (newSearch pzDoubleForce) = .contra := by
  decide

/-- Witness: both quantified parts of the C3 theorem applied at concrete
states — a pigeonhole contradiction on three `{1,2}` variables, and the
forced-assignment success on `pzAllDiffForce`. -/
theorem c3_witness :
    (Constraint.allDifferent [0, 1, 2]).onUpdated 5
        (newSearch { candidates := [mkCandidates [1, 2], mkCandidates [1, 2],
                                    mkCandidates [1, 2]],
                     constraints := [Constraint.allDifferent [0, 1, 2]] }) =
      .contra ∧
    ∃ s', (Constraint.allDifferent [0, 1, 2]).onUpdated 5
        (newSearch pzAllDiffForce) = .ok s' ∧
      ∀ val x, bearers (newSearch pzAllDiffForce) [0, 1, 2] val = [x] →
        ∃ cs', s'.vars[x]? = some (VarState.unassigned cs') ∧
          cs'.toList = [val] := by
  constructor
  · exact c3_alldifferent_on_updated.1 5 _ [0, 1, 2] (by decide)
      (plainVars_of_all _ (by decide)) (by decide) (by decide)
  · exact c3_alldifferent_on_updated.2.1 5 (newSearch pzAllDiffForce) [0, 1, 2]
      (by decide) (plainVars_of_all _ (by decide)) (by decide)
      (candsAt_nodup_of_all _ (by decide)) (by decide)
      (nodouble_of_check _ _ (by decide))
